import Mathlib

/-!
# Verification of the rag_vue RAG service against its specification

This file gives a shallow embedding, in Lean 4, of the parts of the
`rag_vue` repository that the specification's claims talk about:

* the vector-store strategies (`rag_service/services/vector_strategies.py`
  and `backend/services/vector_store_service.py`),
* the retrieval-graph node functions (`backend/services/rag_nodes.py`),
* the custom message reducer (`rag_service/services/rag_state.py`),
* the cross-encoder reranker and the retrieve tool
  (`rag_service/services/reranker.py`, `rag_service/services/rag_tools.py`),
* the hybrid retriever with Reciprocal Rank Fusion
  (`rag_service/services/hybrid_retriever.py`),
* the parent-child DAO (`rag_service/database/parent_child_dao.py`),
* the ingestion pipeline boundary
  (`rag_service/services/document_processor.py`),
* the document cleaner (`backend/utils/document_cleaner.py`),
* the token estimator (`backend/utils/token_counter.py`).

Python strings are modelled as Lean `String`/`List Char`; Python floats
are modelled by exact rationals `ℚ`; Python dicts by insertion-ordered
association lists; fallible effects by `Except String`.
-/

namespace RagVue

/-! ## Vector store strategies (claim C1)

From `rag_service/services/vector_strategies.py` and
`backend/services/vector_store_service.py`. -/

/-- A metadata filter value: Python filter dicts hold ints (`user_id`)
and strings (`doc_id`). -/
inductive FVal where
  | int : Int → FVal
  | str : String → FVal
deriving DecidableEq, Repr

/-- A vector-store filter, i.e. the Python dict passed as `filter=` /
`where=`: an insertion-ordered key/value association list. -/
abbrev VFilter := List (String × FVal)

/-- Python `dict.update`: entries of `upd` override entries of `base`,
new keys are appended in insertion order. -/
def dictUpdate (base upd : VFilter) : VFilter :=
  upd.foldl
    (fun acc kv =>
      if acc.any (fun p => p.1 = kv.1) then
        acc.map (fun p => if p.1 = kv.1 then kv else p)
      else acc ++ [kv])
    base

/-- Look a key up in a filter dict. -/
def dictGet (f : VFilter) (k : String) : Option FVal :=
  (f.find? (fun p => p.1 = k)).map Prod.snd

/-- The kind of vector-store operation issued. -/
inductive OpKind where
  | search | searchWithScore | delete
deriving DecidableEq, Repr

/-- A vector-store operation as issued to the backing store: the target
collection / index and the metadata filter (`none` when no filter
argument is passed at all). -/
structure VectorOp where
  collection : String
  kind : OpKind
  filter : Option VFilter
deriving DecidableEq, Repr

/-- `ChromaStrategy._get_collection_name`: `f"user_{user_id}_docs"`. -/
def chromaCollectionName (userId : Int) : String :=
  "user_" ++ toString userId ++ "_docs"

/-- `ChromaStrategy.delete_documents`: selects the vectors to delete with
`vectorstore.get(where={"doc_id": doc_id})` on the per-user collection and
deletes the returned ids; the filter that determines which vectors die is
`{"doc_id": doc_id}` only. -/
def chromaDeleteDocuments (userId : Int) (docId : String) : VectorOp :=
  { collection := chromaCollectionName userId
    kind := .delete
    filter := some [("doc_id", .str docId)] }

/-- `ChromaStrategy.search`: `similarity_search(query, k=k, filter=filter_args)`
on the per-user collection; `filter_args` is passed through unchanged
(`None` when the caller supplied none, as `VectorStoreService.search_similar`
does). -/
def chromaSearch (userId : Int) (filterArgs : Option VFilter) : VectorOp :=
  { collection := chromaCollectionName userId
    kind := .search
    filter := filterArgs }

/-- `ChromaStrategy.search_with_score`, same filter handling as `search`. -/
def chromaSearchWithScore (userId : Int) (filterArgs : Option VFilter) :
    VectorOp :=
  { collection := chromaCollectionName userId
    kind := .searchWithScore
    filter := filterArgs }

/-- The single Pinecone index name (`config.PINECONE_INDEX_NAME`); Pinecone
is a global index shared by all users. -/
def pineconeIndexName : String := "PINECONE_INDEX_NAME"

/-- `PineconeStrategy.delete_documents`:
`vectorstore.delete(filter={"user_id": user_id, "doc_id": doc_id})`. -/
def pineconeDeleteDocuments (userId : Int) (docId : String) : VectorOp :=
  { collection := pineconeIndexName
    kind := .delete
    filter := some [("user_id", .int userId), ("doc_id", .str docId)] }

/-- `PineconeStrategy.search`: `actual_filter = {"user_id": user_id}` then
`actual_filter.update(filter_args)` when `filter_args` is given. -/
def pineconeSearch (userId : Int) (filterArgs : Option VFilter) : VectorOp :=
  { collection := pineconeIndexName
    kind := .search
    filter := some (match filterArgs with
      | none => [("user_id", .int userId)]
      | some fa => dictUpdate [("user_id", .int userId)] fa) }

/-- `PineconeStrategy.search_with_score`, same filter construction. -/
def pineconeSearchWithScore (userId : Int) (filterArgs : Option VFilter) :
    VectorOp :=
  { (pineconeSearch userId filterArgs) with kind := .searchWithScore }

/-- The vector-DB deployment mode (`config.VECTOR_DB_MODE`). -/
inductive VecMode where
  | local_ | cloud
deriving DecidableEq, Repr

/-- `VectorStoreService.get_retriever`: `search_kwargs = {"k": k}` and only
in cloud mode `search_kwargs["filter"] = {"user_id": user_id}`; the
retriever searches the strategy's vector store for this user. -/
def getRetrieverSearchOp (mode : VecMode) (userId : Int) : VectorOp :=
  { collection :=
      match mode with
      | .cloud => pineconeIndexName
      | .local_ => chromaCollectionName userId
    kind := .search
    filter :=
      match mode with
      | .cloud => some [("user_id", .int userId)]
      | .local_ => none }

/-- Does the operation's filter bind `"user_id"` to the requesting user? -/
def filterIncludesUser (userId : Int) (op : VectorOp) : Bool :=
  match op.filter with
  | none => false
  | some f => dictGet f "user_id" = some (.int userId)

/-! ## Graph routing: `grade_documents` and `generate_answer` (claim C3)

From `backend/services/rag_nodes.py`. -/

/-- The grader's structured output (`GradeDocuments.binary_score`); `none`
models the model returning `None` / an unparsable response. -/
inductive GradeScore where
  | yes | no
deriving DecidableEq, Repr

/-- The routing decision returned by `grade_documents`. -/
inductive Route where
  | generateAnswer | rewriteQuestion
deriving DecidableEq, Repr

/-- `grade_documents` routing: `yes` goes to `generate_answer`; `no` (and a
`None`/parse-failure response, which is treated the same way) goes to
`generate_answer` when `retry_count >= 2` and to `rewrite_question`
otherwise. -/
def gradeRoute (score : Option GradeScore) (retryCount : Nat) : Route :=
  match score with
  | some .yes => .generateAnswer
  | some .no => if retryCount ≥ 2 then .generateAnswer else .rewriteQuestion
  | none => if retryCount ≥ 2 then .generateAnswer else .rewriteQuestion

/-- The two modes of `generate_answer`. -/
inductive AnswerMode where
  | noRelevantTemplate | normal
deriving DecidableEq, Repr

/-- `generate_answer` emits the polite "no relevant content" template
only when `retry_count >= 3`; otherwise it renders the normal RAG prompt
over the last tool message and streams a grounded answer. -/
def answerMode (retryCount : Nat) : AnswerMode :=
  if retryCount ≥ 3 then .noRelevantTemplate else .normal

/-- `rewrite_question` increments the retry counter by one. -/
def rewriteRetryUpdate (retryCount : Nat) : Nat := retryCount + 1

/-- The retry-count values reachable at `grade_documents` within a single
request: a request starts at 0 (`_query_langgraph_stream` initial state)
and the counter grows only via `rewrite_question`, which runs only when
`grade_documents` routed to it. The grader outcome is arbitrary at each
step. -/
inductive ReachableRetry : Nat → Prop where
  | start : ReachableRetry 0
  | step (r : Nat) (g : Option GradeScore) :
      ReachableRetry r → gradeRoute g r = .rewriteQuestion →
      ReachableRetry (rewriteRetryUpdate r)

/-! ## Request-scoped retry counter (claim C4)

From `backend/services/rag_service.py` (`_query_langgraph_stream`) and
`rag_service/services/rag_state.py` (`RAGState`, `replace_messages`). -/

/-- A normalized tool call (`{"id": ..., "name": ..., "args": ...}`);
`id = none` models a missing id. `args` is the rendered argument dict. -/
structure ToolCall where
  id : Option String
  name : String
  args : String
deriving DecidableEq, Repr

/-- A LangChain message: system / human (user) / assistant (`AIMessage`,
with its list of tool calls) / tool result. `content` is modelled as the
textual content. -/
inductive Msg where
  | system (content : String)
  | human (content : String)
  | ai (content : String) (toolCalls : List ToolCall)
  | tool (content : String) (toolCallId : Option String)
deriving DecidableEq, Repr

/-- Does `pat` occur as a contiguous sublist of `s` (Python `pat in s`)? -/
def occursP : List Char → List Char → Bool
  | pat, [] => pat.isEmpty
  | pat, c :: rest => pat.isPrefixOf (c :: rest) || occursP pat rest

/-- Python substring containment `pat in s` on `String`s. -/
def containsStr (s pat : String) : Bool :=
  occursP pat.data s.data

/-- The summary-section marker written into the system message. -/
def summaryMarker : String := "[对话历史总结]"

/-- `replace_messages` from `rag_service/services/rag_state.py`: when the
incoming update begins with a `SystemMessage` containing the summary
marker the whole list is replaced; otherwise the update is merged by
`add_messages` (which appends; our messages carry no explicit ids, and
LangGraph assigns fresh unique ids to id-less messages, so `add_messages`
reduces to list append). -/
def replace_messages (left right : List Msg) : List Msg :=
  match right with
  | Msg.system c :: _ =>
      if containsStr c summaryMarker then right else left ++ right
  | _ => left ++ right

/-- The LangGraph state declared by `RAGState`: `messages` is the only
field annotated with a reducer (`replace_messages`); `retry_count`,
`current_query` and `no_relevant_found` have no reducer. -/
structure RAGStateL where
  messages : List Msg
  retry_count : Nat
  current_query : String
  no_relevant_found : Bool
deriving DecidableEq, Repr

/-- The initial state built for every chat request by
`RAGService._query_langgraph_stream`: one new `HumanMessage` plus
`retry_count = 0`, `current_query = question`,
`no_relevant_found = False`. -/
def initialRequestState (question : String) : RAGStateL :=
  { messages := [Msg.human question]
    retry_count := 0
    current_query := question
    no_relevant_found := false }

/-- Modelled from the spec: LangGraph merges the invocation input into the
checkpointed state channel-wise — a field with a reducer is combined with
the reducer, and a field without an accumulating reducer is overwritten by
the initial-state object on each new invocation (spec §9, "fields without
an accumulating reducer are overwritten by the initial-state object on
each new invocation"). The LangGraph library itself is not part of this
repository's sources. -/
def mergeInvocationInput (checkpoint input : RAGStateL) : RAGStateL :=
  { messages := replace_messages checkpoint.messages input.messages
    retry_count := input.retry_count
    current_query := input.current_query
    no_relevant_found := input.no_relevant_found }

/-! ## Stable descending sort (Python `sorted(..., key=..., reverse=True)`)

Used by `CrossEncoderReranker.rerank` and `reciprocal_rank_fusion`. -/

/-- Insert `a` after every element whose key is `≥` its own — the
insertion step of a stable descending insertion sort. -/
def insertDescBy (f : α → ℚ) (a : α) : List α → List α
  | [] => [a]
  | b :: l => if f a ≤ f b then b :: insertDescBy f a l else a :: b :: l

/-- Stable descending sort by a rational-valued key, processing elements
left to right: Python's `sorted(l, key=f, reverse=True)`. -/
def sortDescBy (f : α → ℚ) (l : List α) : List α :=
  l.foldl (fun acc a => insertDescBy f a acc) []

/-! ## Hybrid retrieval and Reciprocal Rank Fusion (claim C7)

From `rag_service/services/hybrid_retriever.py`. -/

/-- A retrieved document as seen by the fuser: its page content and the
rendered metadata dict (`str(doc.metadata)`), which together form the
fusion key. -/
structure HDoc where
  content : String
  meta : String
deriving DecidableEq, Repr

/-- The fusion key `(doc.page_content, str(doc.metadata))`. -/
def hKey (d : HDoc) : String × String := (d.content, d.meta)

/-- `scores[key] += v` on a `defaultdict(float)` kept as an
insertion-ordered association list. -/
def bumpScore (scores : List ((String × String) × ℚ))
    (key : String × String) (v : ℚ) : List ((String × String) × ℚ) :=
  if scores.any (fun p => p.1 = key) then
    scores.map (fun p => if p.1 = key then (p.1, p.2 + v) else p)
  else scores ++ [(key, v)]

/-- One pass of `for rank, doc in enumerate(results[:k])`, adding
`1.0 / (c + rank + 1)` for each document (`rank` is 0-based, so the
divisor is `c +` the 1-based rank). -/
def rrfAddGo (c : Nat) :
    List ((String × String) × ℚ) → Nat → List HDoc →
    List ((String × String) × ℚ)
  | scores, _, [] => scores
  | scores, rank, d :: rest =>
      rrfAddGo c (bumpScore scores (hKey d) (1 / (c + rank + 1 : ℚ)))
        (rank + 1) rest

/-- `doc_map` construction: first occurrence of a key wins. -/
def docMapAdd (m : List ((String × String) × HDoc)) (d : HDoc) :
    List ((String × String) × HDoc) :=
  if m.any (fun p => p.1 = hKey d) then m else m ++ [(hKey d, d)]

/-- Dictionary lookup, also used for `doc_map[key]`. -/
def lookupKey (m : List ((String × String) × β)) (key : String × String) :
    Option β :=
  (m.find? (fun p => p.1 = key)).map Prod.snd

/-- The accumulated score of a key (`defaultdict` read: missing = 0). -/
def lookupScore (scores : List ((String × String) × ℚ))
    (key : String × String) : ℚ :=
  ((lookupKey scores key).getD 0)

/-- `reciprocal_rank_fusion(result_lists, k, c)`: accumulate
`1/(c + rank + 1)` per key over each list truncated to `k`, sort the
(score-keyed, insertion-ordered) items by score descending — Python's
stable `sorted(..., reverse=True)` — map keys back through `doc_map`,
and truncate to `k`. -/
def reciprocal_rank_fusion (resultLists : List (List HDoc)) (k : Nat)
    (c : Nat) : List HDoc :=
  let trunc := resultLists.map (fun l => l.take k)
  let scores := trunc.foldl (fun acc l => rrfAddGo c acc 0 l) []
  let docMap := trunc.foldl (fun acc l => l.foldl docMapAdd acc) []
  let sortedItems := sortDescBy (fun p => p.2) scores
  let fused := sortedItems.map
    (fun p => (lookupKey docMap p.1).getD ⟨"", ""⟩)
  fused.take k

/-- The RRF score of a document according to the spec's formula:
`score(d) = Σ_i 1/(c + rank_i(d))`, where `rank_i(d)` is `d`'s 1-based
rank in list `i` (each list truncated to its first `k` entries), and a
list not containing `d` contributes nothing. -/
def rrfScore (resultLists : List (List HDoc)) (k : Nat) (c : Nat)
    (d : HDoc) : ℚ :=
  (resultLists.map (fun l =>
    match (l.take k).findIdx? (fun e => hKey e = hKey d) with
    | some i => 1 / (c + i + 1 : ℚ)
    | none => 0)).sum

/-- `HybridRetriever.invoke`: dense retrieval truncated to `top_k`; BM25
truncated to `top_k` when available (`bm25` is `[]` when the BM25
retriever is unavailable — cloud dense store, missing dependency, empty
corpus — or returned nothing); pure dense results when the BM25 list is
empty, otherwise RRF over `[bm25_docs, vector_docs]` with `k = top_k` and
the default smoothing constant `c = 60`. -/
def hybridInvoke (topK : Nat) (vector bm25 : List HDoc) : List HDoc :=
  let vectorDocs := vector.take topK
  let bm25Docs := bm25.take topK
  if bm25Docs.isEmpty then vectorDocs
  else reciprocal_rank_fusion [bm25Docs, vectorDocs] topK 60

/-- The contribution of one ranked list to an RRF score, with `r` the
rank offset already consumed. -/
def idxContribution (c r : Nat) (o : Option Nat) : ℚ :=
  match o with
  | some i => 1 / ((c : ℚ) + r + i + 1)
  | none => 0

/-- A key is present in an association list. -/
def hasKey {β : Type} (m : List ((String × String) × β))
    (key : String × String) : Prop :=
  ∃ p ∈ m, p.1 = key

/-! ## Python whitespace stripping (`str.strip()`)

Shared by the reranker/tool formatting, the summarization node and the
document cleaner. -/

/-- Python whitespace for `str.strip()` (the ASCII whitespace class). -/
def pyWs (ch : Char) : Bool :=
  ch = ' ' || ch = '\t' || ch = '\n' || ch = '\r' ||
    ch = '\x0b' || ch = '\x0c'

/-- `str.strip()` on a character list. -/
def stripChars (s : List Char) : List Char :=
  ((s.dropWhile pyWs).reverse.dropWhile pyWs).reverse

/-- `str.strip()` on `String`s. -/
def pyStrip (s : String) : String :=
  ⟨stripChars s.data⟩

/-! ## Cross-encoder reranking and the retrieve tool (claim C6)

From `rag_service/services/reranker.py` (`CrossEncoderReranker.rerank`)
and `rag_service/services/rag_tools.py` (`retrieve_documents`). -/

/-- A candidate document as the reranker sees it: the page content and
the `rerank_score` metadata entry (`none` before scoring). Other metadata
keys (source, title, …) do not affect the claimed properties and are
omitted from the model. -/
structure RDoc where
  content : String
  rerankScore : Option ℚ
deriving DecidableEq, Repr

/-- `doc.metadata.get("rerank_score", 0)`. -/
def getScore (d : RDoc) : ℚ := d.rerankScore.getD 0

/-- `CrossEncoderReranker.rerank(query, documents, top_n,
score_threshold)`. `scores` are the cross-encoder outputs of
`model.predict(pairs)`, aligned with `documents` (`zip` drops the
surplus of the longer side; unscored documents keep their previous
metadata). The scored documents are sorted by `rerank_score` descending
(Python's stable sort), optionally filtered by
`rerank_score >= score_threshold`, and truncated to `top_n`. -/
def rerank (docs : List RDoc) (scores : List ℚ) (topN : Nat)
    (scoreThreshold : Option ℚ) : List RDoc :=
  if docs.isEmpty then []
  else
    let written := (docs.zip scores).map
        (fun p => { p.1 with rerankScore := some p.2 }) ++
      docs.drop scores.length
    let sortedDocs := sortDescBy getScore written
    match scoreThreshold with
    | some t => (sortedDocs.filter (fun d => t ≤ getScore d)).take topN
    | none => sortedDocs.take topN

/-- The sentinel returned when nothing (relevant) was retrieved. -/
def noRelevantSentinel : String := "No relevant documents found."

/-- One `[Document i] (…)` header of the tool output; of the metadata
keys only `rerank_score` is present in the model. -/
def headerFor (i : Nat) (d : RDoc) : String :=
  match d.rerankScore with
  | some q => "[Document " ++ toString i ++ "] (Rerank_score: " ++
      toString q ++ ")"
  | none => "[Document " ++ toString i ++ "]"

/-- `result_parts` of the tool: documents with non-empty stripped content,
each rendered as header plus content, 1-based enumeration. -/
def formatParts : Nat → List RDoc → List String
  | _, [] => []
  | i, d :: rest =>
      let content := pyStrip d.content
      if content = "" then formatParts (i + 1) rest
      else (headerFor i d ++ "\n" ++ content) :: formatParts (i + 1) rest

/-- The formatted tool output: parts joined by blank lines. -/
def formatDocs (docs : List RDoc) : String :=
  String.intercalate "\n\n" (formatParts 1 docs)

/-- `retrieve_documents` (traditional mode with the reranker enabled):
sentinel when retrieval returned nothing, rerank with threshold and
`top_n`, sentinel again when the filter left zero candidates, otherwise
the formatted output. -/
def retrieve_documents_reranked (childDocs : List RDoc) (scores : List ℚ)
    (topN : Nat) (scoreThreshold : Option ℚ) : String :=
  if childDocs.isEmpty then noRelevantSentinel
  else
    let docs := rerank childDocs scores topN scoreThreshold
    if docs.isEmpty then noRelevantSentinel
    else formatDocs docs

/-! ## Parent-map persistence (claim C8)

From `rag_service/database/parent_child_dao.py` and the transaction
helpers of `rag_service/database/db_manager.py`: `execute_update` and the
`get_cursor` context each open **their own** transaction (connection +
commit), so `save_parent_map` commits the `DELETE` and the batched
`INSERT` separately. -/

/-- A parent block document: page content plus its metadata rendered as
the JSON string `json.dumps(doc.metadata)` (JSON round-trips, so metadata
is modelled opaquely). -/
structure PDoc where
  content : String
  meta : String
deriving DecidableEq, Repr

/-- A row of the `parent_child_maps` table. -/
structure PRow where
  user_id : Int
  doc_id : String
  parent_id : String
  content : String
  meta : String
deriving DecidableEq, Repr

/-- The table, in insertion order. -/
abbrev PTable := List PRow

/-- `page_content.replace('\x00', '')` — PostgreSQL rejects NUL bytes. -/
def stripNulStr (s : String) : String :=
  ⟨s.data.filter (fun ch => ch ≠ '\x00')⟩

/-- `delete_parent_map`: `DELETE FROM parent_child_maps WHERE user_id = ?
AND doc_id = ?` (one transaction). -/
def delete_parent_map (uid : Int) (did : String) (tbl : PTable) : PTable :=
  tbl.filter (fun r => ¬ (r.user_id = uid ∧ r.doc_id = did))

/-- The rows inserted by the `executemany` batch for a parent map. -/
def parentRows (uid : Int) (did : String) (m : List (String × PDoc)) :
    List PRow :=
  m.map (fun p => ⟨uid, did, p.1, stripNulStr p.2.content, p.2.meta⟩)

/-- `save_parent_map`: the sequence of *committed* table states it
produces — first the state after the `DELETE` transaction commits, then
(when the map is non-empty) the state after the batch-insert transaction
commits. Between the two commits the deleted-but-not-yet-repopulated
state is visible to other readers. -/
def save_parent_map_states (uid : Int) (did : String)
    (m : List (String × PDoc)) (tbl : PTable) : List PTable :=
  let t1 := delete_parent_map uid did tbl
  if m.isEmpty then [t1] else [t1, t1 ++ parentRows uid did m]

/-- The final table state after `save_parent_map` returns. -/
def save_parent_map (uid : Int) (did : String) (m : List (String × PDoc))
    (tbl : PTable) : PTable :=
  let t1 := delete_parent_map uid did tbl
  if m.isEmpty then t1 else t1 ++ parentRows uid did m

/-- Python dict insertion with override (later rows overwrite earlier
ones at their original position). -/
def dictInsertP (acc : List (String × PDoc)) (kv : String × PDoc) :
    List (String × PDoc) :=
  if acc.any (fun p => p.1 = kv.1) then
    acc.map (fun p => if p.1 = kv.1 then kv else p)
  else acc ++ [kv]

/-- `get_parent_map`: select this key's rows in insertion order and build
the `parent_id → Document` dict. -/
def get_parent_map (uid : Int) (did : String) (tbl : PTable) :
    List (String × PDoc) :=
  ((tbl.filter (fun r => r.user_id = uid ∧ r.doc_id = did)).map
    (fun r => (r.parent_id, PDoc.mk r.content r.meta))).foldl dictInsertP []

/-! ## Document cleaning (claim C10)

From `backend/utils/document_cleaner.py`, `clean_text`. Each `re.sub` is
embedded as a left-to-right scanner equivalent to the (leftmost, greedy)
regex replacement. -/

/-- Scanner for `re.sub(r'<[^>]+>', '', text)`. The state `some buf`
means a `<` has been read and `buf` holds the characters read since; the
first following `>` closes a match exactly when `buf` is non-empty
(`[^>]+` needs at least one character). A `<` that never finds a `>` is
literal. -/
def subHtmlGo : Option (List Char) → List Char → List Char
  | none, [] => []
  | none, c :: rest =>
      if c = '<' then subHtmlGo (some []) rest
      else c :: subHtmlGo none rest
  | some buf, [] => '<' :: buf
  | some buf, c :: rest =>
      if c = '>' then
        if buf.isEmpty then '<' :: '>' :: subHtmlGo none rest
        else subHtmlGo none rest
      else subHtmlGo (some (buf ++ [c])) rest

/-- `re.sub(r'<[^>]+>', '', text)`. -/
def subHtml (s : List Char) : List Char := subHtmlGo none s

/-- Does the text contain a `<[^>]+>` match? Same scan as `subHtmlGo`;
the state records whether we are past a `<` and whether at least one
non-`>` character followed it. -/
def hasTagGo : Option Bool → List Char → Bool
  | _, [] => false
  | none, c :: rest =>
      if c = '<' then hasTagGo (some false) rest
      else hasTagGo none rest
  | some hasBuf, c :: rest =>
      if c = '>' then
        if hasBuf then true else hasTagGo none rest
      else hasTagGo (some true) rest

/-- Top-level tag-match test. -/
def hasTag (s : List Char) : Bool := hasTagGo none s

/-- Scanner for `re.sub(r'\n{3,}', '\n\n', text)`: `seen` counts the
newlines already emitted in the current run; from the third newline on,
newlines of the run are dropped. -/
def collapseNLGo : Nat → List Char → List Char
  | _, [] => []
  | seen, c :: rest =>
      if c = '\n' then
        if seen < 2 then c :: collapseNLGo (seen + 1) rest
        else collapseNLGo seen rest
      else c :: collapseNLGo 0 rest

/-- `re.sub(r'\n{3,}', '\n\n', text)`. -/
def collapseNL (s : List Char) : List Char := collapseNLGo 0 s

/-- The `[ \t]` class. -/
def isBlankCh (c : Char) : Bool := c = ' ' || c = '\t'

/-- Scanner for `re.sub(r'[ \t]+$', '', text, flags=re.MULTILINE)`:
`pend` buffers the current run of spaces/tabs; the run is dropped when a
newline or the end of the string follows, kept otherwise. -/
def stripTrailGo : List Char → List Char → List Char
  | _, [] => []
  | pend, c :: rest =>
      if isBlankCh c then stripTrailGo (pend ++ [c]) rest
      else if c = '\n' then '\n' :: stripTrailGo [] rest
      else pend ++ c :: stripTrailGo [] rest

/-- `re.sub(r'[ \t]+$', '', text, flags=re.MULTILINE)`. -/
def stripTrail (s : List Char) : List Char := stripTrailGo [] s

/-- Scanner for `re.sub(r' +', ' ', text)`: `inRun` records whether the
previous character was a space already emitted for the current run. -/
def collapseSpacesGo : Bool → List Char → List Char
  | _, [] => []
  | inRun, c :: rest =>
      if c = ' ' then
        if inRun then collapseSpacesGo true rest
        else ' ' :: collapseSpacesGo true rest
      else c :: collapseSpacesGo false rest

/-- `re.sub(r' +', ' ', text)`. -/
def collapseSpaces (s : List Char) : List Char := collapseSpacesGo false s

/-- Scanner for `re.sub(r' ?\n ?', '\n', text)`: a space directly before
a newline is consumed with it, and the match greedily takes one space
after the newline as well. -/
def normNLGo : List Char → List Char
  | [] => []
  | [c] => [c]
  | [c1, c2] =>
      if c1 = ' ' ∧ c2 = '\n' then ['\n']
      else if c1 = '\n' then
        if c2 = ' ' then ['\n'] else '\n' :: normNLGo [c2]
      else c1 :: normNLGo [c2]
  | c1 :: c2 :: c3 :: rest =>
      if c1 = ' ' ∧ c2 = '\n' then
        if c3 = ' ' then '\n' :: normNLGo rest
        else '\n' :: normNLGo (c3 :: rest)
      else if c1 = '\n' then
        if c2 = ' ' then '\n' :: normNLGo (c3 :: rest)
        else '\n' :: normNLGo (c2 :: c3 :: rest)
      else c1 :: normNLGo (c2 :: c3 :: rest)

/-- `text.replace('\t', ' ')`. -/
def replaceTab (s : List Char) : List Char :=
  s.map (fun c => if c = '\t' then ' ' else c)

/-- `clean_text(text, remove_multiple_newlines, remove_trailing_whitespace,
remove_html_tags, normalize_whitespace, min_length)`, in the source's
execution order: strip, HTML removal, newline collapsing, per-line
trailing-whitespace removal, whitespace normalization (space collapsing,
newline-adjacent spaces, tab replacement), final strip, minimum-length
check. -/
def clean_text (removeMultipleNewlines removeTrailingWhitespace
    removeHtmlTags normalizeWhitespace : Bool) (minLength : Nat)
    (s : List Char) : List Char :=
  if s = [] then []
  else
    let t0 := stripChars s
    let t1 := if removeHtmlTags then subHtml t0 else t0
    let t2 := if removeMultipleNewlines then collapseNL t1 else t1
    let t3 := if removeTrailingWhitespace then stripTrail t2 else t2
    let t4 := if normalizeWhitespace then
        replaceTab (normNLGo (collapseSpaces t3))
      else t3
    let t5 := stripChars t4
    if t5.length < minLength then [] else t5

/-- `clean_text` with its default options (all cleanups on,
`min_length = 0`) — the configuration the ingestion pipeline uses. -/
def cleanTextD (s : List Char) : List Char :=
  clean_text true true true true 0 s

/-- Cleaned normal form: stripped at both ends, no HTML-tag match, no run
of three newlines, no double space, no space adjacent to a newline, no
tab. (`'\t' ∉ s` also rules out trailing tabs before newlines.) -/
def cleanNF (s : List Char) : Bool :=
  (match s.head? with | none => true | some c => !(pyWs c)) &&
  (match s.getLast? with | none => true | some c => !(pyWs c)) &&
  !(hasTag s) &&
  !(occursP ['\n', '\n', '\n'] s) &&
  !(occursP [' ', ' '] s) &&
  !(occursP [' ', '\n'] s) &&
  !(occursP ['\n', ' '] s) &&
  !(s.contains '\t')

/-! ## Document ingestion boundary (claim C9)

From `rag_service/services/document_processor.py`
(`DocumentProcessor.process_document`). Every effectful callee (storage
download, PDF/text loading, the parent-child splitter, the DAO writes,
vectorization, status updates) is an oracle field of `ProcEnv`; a callee
that raises is modelled as `Except.error` with the exception's message
(`str(e)`), and the `try`/`except` wrapper of `process_document` is the
final `match` of `processDocument`. The paragraph splitter
(`split_by_paragraphs`) is pure in the source and is modelled as a pure
oracle. -/

/-- `"\n\n".join(pages)`. -/
def joinNN : List (List Char) → List Char
  | [] => []
  | [p] => p
  | p :: ps => p ++ '\n' :: '\n' :: joinNN ps

/-- Environment of effectful callees of `process_document`, specialised
to one `(user_id, doc_id, filepath)` triple. `split_to_parent_child`
yields the number of child documents and of parents; only the former
feeds the returned chunk count. -/
structure ProcEnv where
  storage_mode : String
  use_parent_child : Bool
  storage_ready : Bool
  download_file : Except String (Option (List Char))
  load_pdf : Except String (List (List Char))
  read_text_file : Except String (List Char)
  split_to_parent_child : List Char → Except String (Nat × Nat)
  save_parent_map : Except String Unit
  split_by_paragraphs : List Char → List (List Char)
  add_documents : Nat → Except String (List Nat)
  mark_document_active : Except String Unit
  update_document : Except String Unit

/-- Number of vectorization batches: `range(0, total, 50)`. -/
def batchCount (total : Nat) : Nat :=
  (total + 50 - 1) / 50

/-- Runs `vector_service.add_documents` on batches `0 .. n-1` in order,
stopping at the first exception. -/
def vectorizeBatches (env : ProcEnv) : Nat → Except String Unit
  | 0 => Except.ok ()
  | Nat.succ b =>
      match vectorizeBatches env b with
      | Except.error e => Except.error e
      | Except.ok _ =>
          match env.add_documents b with
          | Except.error e => Except.error e
          | Except.ok _ => Except.ok ()

/-- Step 1 of `process_document`: obtain the raw text and page count.
`Sum.inl` is an early `return False, msg`; `Sum.inr` carries
`(full_text, page_count)` into the rest of the body. -/
def parseStage (env : ProcEnv) (file_type : String) :
    Except String ((Bool × String) ⊕ (List Char × Option Nat)) :=
  if env.storage_mode = "cloud" then
      if env.storage_ready = false then
        Except.ok (Sum.inl (false, "Supabase Storage 未初始化"))
      else
        match env.download_file with
        | Except.error e => Except.error e
        | Except.ok none =>
            Except.ok (Sum.inl (false, "无法从云存储下载文件"))
        | Except.ok (some file_data) =>
            if file_type = ".pdf" then
              match env.load_pdf with
              | Except.error e => Except.error e
              | Except.ok pages =>
                  Except.ok (Sum.inr (joinNN pages, some pages.length))
            else if file_type = ".txt" ∨ file_type = ".md" then
              if file_data = [] then
                Except.ok (Sum.inl (false, "无法读取文件内容"))
              else Except.ok (Sum.inr (file_data, none))
            else
              Except.ok (Sum.inl (false, "不支持的文件类型：" ++ file_type))
    else
      if file_type = ".pdf" then
        match env.load_pdf with
        | Except.error e => Except.error e
        | Except.ok pages =>
            Except.ok (Sum.inr (joinNN pages, some pages.length))
      else if file_type = ".txt" ∨ file_type = ".md" then
        match env.read_text_file with
        | Except.error e => Except.error e
        | Except.ok txt =>
            if txt = [] then
              Except.ok (Sum.inl (false, "无法读取文件内容"))
            else Except.ok (Sum.inr (txt, none))
      else Except.ok (Sum.inl (false, "不支持的文件类型：" ++ file_type))

/-- Steps 2–5 of `process_document`: clean the text, split it (persisting
the parent map in Parent-Child mode), vectorize in batches of 50, and
update the document status (page count only when truthy). -/
def afterParse (env : ProcEnv) (raw_text : List Char)
    (page_count : Option Nat) : Except String (Bool × String) :=
  let full_text := clean_text true true true true 0 raw_text
  let splitRes : Except String (Option Nat) :=
    if env.use_parent_child then
      match env.split_to_parent_child full_text with
      | Except.error e => Except.error e
      | Except.ok (nChildren, _) =>
          match env.save_parent_map with
          | Except.error e => Except.error e
          | Except.ok _ => Except.ok (some nChildren)
    else
      let chunks := env.split_by_paragraphs full_text
      if chunks = [] then Except.ok none
      else Except.ok (some chunks.length)
  match splitRes with
  | Except.error e => Except.error e
  | Except.ok none => Except.ok (false, "文档内容为空或无法分块")
  | Except.ok (some total) =>
      match vectorizeBatches env (batchCount total) with
      | Except.error e => Except.error e
      | Except.ok _ =>
          match env.mark_document_active with
          | Except.error e => Except.error e
          | Except.ok _ =>
              match
                (match page_count with
                 | some (Nat.succ _) => env.update_document
                 | _ => Except.ok ()) with
              | Except.error e => Except.error e
              | Except.ok _ => Except.ok (true, Nat.repr total)

/-- The body of `process_document` inside the `try` block. `Except.ok`
carries the Python `return` value (note the early `return False, msg`
cases return *normally*); `Except.error` is an uncaught exception
carrying `str(e)`. -/
def processDocumentExc (env : ProcEnv) (file_type : String) :
    Except String (Bool × String) :=
  match parseStage env file_type with
  | Except.error e => Except.error e
  | Except.ok (Sum.inl r) => Except.ok r
  | Except.ok (Sum.inr (raw_text, page_count)) =>
      afterParse env raw_text page_count

/-- `process_document`: the `try`/`except Exception as e` wrapper, which
turns any exception into `(False, str(e))`. -/
def processDocument (env : ProcEnv) (file_type : String) : Bool × String :=
  match processDocumentExc env file_type with
  | Except.ok r => r
  | Except.error e => (false, e)

/-- A `ProcEnv` whose cloud download raises. -/
def procEnvW : ProcEnv :=
  ⟨"cloud", false, true, Except.error "download failed", Except.ok [],
   Except.ok [], fun _ => Except.ok (0, 0), Except.ok (),
   fun _ => [], fun _ => Except.ok [], Except.ok (), Except.ok ()⟩

/-! ## Token estimation (`backend/utils/token_counter.py`)

`TokenCounter._estimate_tokens_chinese` and `get_messages_tokens`.
Floats are modelled as exact rationals (`1.8 = 9/5`, `0.4 = 2/5`). -/

/-- CJK unified ideograph (`一-鿿`) or extension A
(`㐀-䶿`). -/
def isCJKChar (c : Char) : Bool :=
  (0x4e00 ≤ c.toNat && c.toNat ≤ 0x9fff) ||
    (0x3400 ≤ c.toNat && c.toNat ≤ 0x4dbf)

/-- `_estimate_tokens_chinese`: CJK characters count 1.8 tokens, other
non-whitespace characters 0.4 (`char.strip()` truthiness = not a Python
whitespace character). -/
def estimate_tokens_chinese (text : List Char) : ℚ :=
  (9 / 5 : ℚ) * (text.countP fun c => isCJKChar c) +
    (2 / 5 : ℚ) * (text.countP fun c => !(isCJKChar c) && !(pyWs c))

/-- The contribution of one message to the estimation string:
`str(msg.content)` plus, for an `AIMessage` with truthy `tool_calls`,
`str(msg.tool_calls)`; the latter rendering is the oracle `tcR`. -/
def msgTokStr (tcR : List ToolCall → String) : Msg → String
  | Msg.ai c tcs => if tcs.isEmpty then c else c ++ tcR tcs
  | Msg.system c => c
  | Msg.human c => c
  | Msg.tool c _ => c

/-- `get_messages_tokens`: concatenate every message's contribution and
estimate the result. -/
def get_messages_tokens (tcR : List ToolCall → String)
    (msgs : List Msg) : ℚ :=
  estimate_tokens_chinese ((msgs.map fun m => (msgTokStr tcR m).data).flatten)

/-! ## The tool-call integrity pass (claims C2 and C5)

From `backend/services/rag_nodes.py`: `_validate_and_fix_tool_calls`
and `_clean_orphaned_tool_calls`. The Python index-juggling loops are
rewritten as structurally recursive state machines over the message
list; `gen` supplies the `uuid.uuid4()` values for id-less tool calls. -/

/-- Scanning state of `_validate_and_fix_tool_calls` while consuming the
segment that follows an `AIMessage` with tool calls: the message's
content, its fixed tool calls, their ids, and the ids of matched
`ToolMessage`s found so far. -/
structure ScanSt where
  aiContent : String
  fixedTcs : List ToolCall
  ids : List String
  found : List String

/-- Normalises the tool calls of one `AIMessage`: an existing id is kept
(as a string), a missing id is replaced by a generated uuid. Returns the
fixed calls, their ids (`tool_call_ids`), and the updated uuid
counter. -/
def fixTcs (gen : Nat → String) :
    Nat → List ToolCall → List ToolCall × List String × Nat
  | ctr, [] => ([], [], ctr)
  | ctr, tc :: rest =>
      match tc.id with
      | some i =>
          let r := fixTcs gen ctr rest
          (⟨some i, tc.name, tc.args⟩ :: r.1, i :: r.2.1, r.2.2)
      | none =>
          let nid := gen ctr
          let r := fixTcs gen (ctr + 1) rest
          (⟨some nid, tc.name, tc.args⟩ :: r.1, nid :: r.2.1, r.2.2)

/-- End-of-segment bookkeeping of `_validate_and_fix_tool_calls`: if some
tool calls found no `ToolMessage`, the *last appended message*
(`fixed_messages[-1]`, the head of the reversed accumulator — not
necessarily the `AIMessage` itself) is replaced by the `AIMessage`
restricted to the matched calls, or to no calls when its content is
non-empty, or popped entirely. -/
def finalizeScan (acc : List Msg) (st : ScanSt) : List Msg :=
  let missing := st.ids.filter fun i => !(st.found.contains i)
  if missing.isEmpty then acc
  else
    let remaining := st.fixedTcs.filter fun tc =>
      match tc.id with
      | some i => st.found.contains i
      | none => false
    match acc with
    | [] => []
    | _last :: accRest =>
        if !remaining.isEmpty then Msg.ai st.aiContent remaining :: accRest
        else if !(st.aiContent = "") then Msg.ai st.aiContent [] :: accRest
        else accRest

/-- The loop of `_validate_and_fix_tool_calls` as a state machine:
`acc` is the reversed `fixed_messages`; a `some st` mode means we are
inside the segment following a tool-calling `AIMessage` (matching
`ToolMessage`s are kept and recorded, non-matching or id-less ones are
dropped, other messages are kept; an `AIMessage` or `HumanMessage` ends
the segment and is then reprocessed normally). -/
def validateGo (gen : Nat → String) :
    Nat → List Msg → Option ScanSt → List Msg → List Msg
  | _, acc, none, [] => acc.reverse
  | _, acc, some st, [] => (finalizeScan acc st).reverse
  | ctr, acc, none, Msg.ai c tcs :: rest =>
      if tcs.isEmpty then validateGo gen ctr (Msg.ai c tcs :: acc) none rest
      else
        let f := fixTcs gen ctr tcs
        validateGo gen f.2.2 (Msg.ai c f.1 :: acc)
          (some ⟨c, f.1, f.2.1, []⟩) rest
  | ctr, acc, none, Msg.human c :: rest =>
      validateGo gen ctr (Msg.human c :: acc) none rest
  | ctr, acc, none, Msg.system c :: rest =>
      validateGo gen ctr (Msg.system c :: acc) none rest
  | ctr, acc, none, Msg.tool c tid :: rest =>
      validateGo gen ctr (Msg.tool c tid :: acc) none rest
  | ctr, acc, some st, Msg.ai c tcs :: rest =>
      if tcs.isEmpty then
        validateGo gen ctr (Msg.ai c tcs :: finalizeScan acc st) none rest
      else
        let acc1 := finalizeScan acc st
        let f := fixTcs gen ctr tcs
        validateGo gen f.2.2 (Msg.ai c f.1 :: acc1)
          (some ⟨c, f.1, f.2.1, []⟩) rest
  | ctr, acc, some st, Msg.human c :: rest =>
      validateGo gen ctr (Msg.human c :: finalizeScan acc st) none rest
  | ctr, acc, some st, Msg.tool c (some tid) :: rest =>
      if st.ids.contains tid then
        validateGo gen ctr (Msg.tool c (some tid) :: acc)
          (some { st with found := tid :: st.found }) rest
      else validateGo gen ctr acc (some st) rest
  | ctr, acc, some st, Msg.tool _ none :: rest =>
      validateGo gen ctr acc (some st) rest
  | ctr, acc, some st, Msg.system c :: rest =>
      validateGo gen ctr (Msg.system c :: acc) (some st) rest

/-- `_validate_and_fix_tool_calls`. -/
def validate_and_fix_tool_calls (gen : Nat → String)
    (msgs : List Msg) : List Msg :=
  if msgs.isEmpty then msgs else validateGo gen 0 [] none msgs

/-- The truthy tool-call ids of an `AIMessage`
(`if tool_call_id: tool_call_ids.add(...)`). -/
def truthyIds (tcs : List ToolCall) : List String :=
  (tcs.filterMap ToolCall.id).filter fun i => !(i = "")

/-- The 10-message lookahead of `_clean_orphaned_tool_calls`: collect the
truthy `tool_call_id`s matching `ids` among the following messages,
stopping at the first `AIMessage` or `HumanMessage`. (Callers pass
`rest.take 9`, the `j < i + 10` window.) -/
def findWindow (ids : List String) : List Msg → List String
  | [] => []
  | Msg.ai _ _ :: _ => []
  | Msg.human _ :: _ => []
  | Msg.tool _ (some tid) :: rest =>
      if !(tid = "") && ids.contains tid then tid :: findWindow ids rest
      else findWindow ids rest
  | Msg.tool _ none :: rest => findWindow ids rest
  | Msg.system _ :: rest => findWindow ids rest

/-- Python set equality `found_tool_messages == tool_call_ids` on lists
up to membership. -/
def setEqS (a b : List String) : Bool :=
  (a.all fun i => b.contains i) && (b.all fun i => a.contains i)

/-- The tool calls whose truthy id found a `ToolMessage`
(`paired_tool_calls`). -/
def pairedTcs (tcs : List ToolCall) (found : List String) : List ToolCall :=
  tcs.filter fun tc =>
    match tc.id with
    | some i => !(i = "") && found.contains i
    | none => false

/-- The loop of `_clean_orphaned_tool_calls` as a state machine: mode
`some orph` drops the run of `ToolMessage`s whose ids belong to the
orphaned set right after an unpaired `AIMessage` was cleaned; the first
non-matching message is processed normally. -/
def cleanGo : Option (List String) → List Msg → List Msg
  | _, [] => []
  | some orph, Msg.tool c (some tid) :: rest =>
      if !(tid = "") && orph.contains tid then cleanGo (some orph) rest
      else Msg.tool c (some tid) :: cleanGo none rest
  | _, Msg.ai c tcs :: rest =>
      if tcs.isEmpty then Msg.ai c tcs :: cleanGo none rest
      else
        let ids := truthyIds tcs
        let found := findWindow ids (rest.take 9)
        if setEqS ids found then Msg.ai c tcs :: cleanGo none rest
        else
          let orph := ids.filter fun i => !(found.contains i)
          if c = "" then cleanGo (some orph) rest
          else Msg.ai c (pairedTcs tcs found) :: cleanGo (some orph) rest
  | _, Msg.system c :: rest => Msg.system c :: cleanGo none rest
  | _, Msg.human c :: rest => Msg.human c :: cleanGo none rest
  | none, Msg.tool c tid :: rest => Msg.tool c tid :: cleanGo none rest
  | some _, Msg.tool c none :: rest => Msg.tool c none :: cleanGo none rest

/-- `_clean_orphaned_tool_calls` (which first runs
`_validate_and_fix_tool_calls`). -/
def clean_orphaned_tool_calls (gen : Nat → String)
    (msgs : List Msg) : List Msg :=
  if msgs.isEmpty then msgs
  else cleanGo none (validate_and_fix_tool_calls gen msgs)

/-- Segment bookkeeping for the Anthropic-style invariant: `none` means
no tool-calling assistant segment is open; `some counters` maps each open
call id to the number of tool results seen for it so far. -/
def closeSeg : Option (List (String × Nat)) → Bool
  | none => true
  | some counters => counters.all fun p => p.2 = 1

/-- Opens a segment for an assistant's tool calls: fails (`none`) if any
call id is missing, empty, or duplicated. -/
def initCalls : List ToolCall → Option (List (String × Nat))
  | [] => some []
  | tc :: rest =>
      match tc.id with
      | some i =>
          if i = "" then none
          else
            match initCalls rest with
            | none => none
            | some cs =>
                if cs.any (fun p => p.1 = i) then none
                else some ((i, 0) :: cs)
      | none => none

/-- Records one tool result for call id `t`. -/
def bumpTok (counters : List (String × Nat)) (t : String) :
    List (String × Nat) :=
  counters.map fun p => if p.1 = t then (p.1, p.2 + 1) else p

/-- Checker for the claimed invariant, walking the list segment by
segment: every assistant tool call has a non-empty id and exactly one
following tool result with that id before the next human or assistant
message; every tool message answers an open call of the current
segment (system messages do not close a segment). -/
def aokGo : Option (List (String × Nat)) → List Msg → Bool
  | act, [] => closeSeg act
  | act, Msg.ai _ tcs :: rest =>
      closeSeg act &&
        (if tcs.isEmpty then aokGo none rest
         else
           match initCalls tcs with
           | none => false
           | some counters => aokGo (some counters) rest)
  | act, Msg.human _ :: rest => closeSeg act && aokGo none rest
  | act, Msg.system _ :: rest => aokGo act rest
  | some counters, Msg.tool _ (some t) :: rest =>
      if counters.any (fun p => p.1 = t) then
        aokGo (some (bumpTok counters t)) rest
      else false
  | some _, Msg.tool _ none :: _ => false
  | none, Msg.tool _ _ :: _ => false

/-- The Anthropic-style invariant claimed for integrity-pass outputs. -/
def anthropic_ok (msgs : List Msg) : Bool :=
  aokGo none msgs

/-- Well-formed message lists: system, human and call-free assistant
messages anywhere, and tool-calling assistants only as two-message blocks
`AIMessage` with a single non-empty-id call immediately followed by its
unique tool result. -/
inductive WFm : List Msg → Prop
  | nil : WFm []
  | sys (c : String) (rest : List Msg) : WFm rest →
      WFm (Msg.system c :: rest)
  | hum (c : String) (rest : List Msg) : WFm rest →
      WFm (Msg.human c :: rest)
  | aiPlain (c : String) (rest : List Msg) : WFm rest →
      WFm (Msg.ai c [] :: rest)
  | block (c : String) (tc : ToolCall) (tcont : String) (i : String)
      (rest : List Msg) : tc.id = some i → i ≠ "" → WFm rest →
      WFm (Msg.ai c [tc] :: Msg.tool tcont (some i) :: rest)

/-! ## Message summarization (claim C5)

From `backend/services/rag_nodes.py` (`summarize_messages`). The
summary model's output (after the text-part extraction) is the oracle
`summary`; step 4.4 (the cleanup of `old_messages`) only shapes the
summary *prompt*, i.e. the oracle's input, and therefore does not appear
in the returned message list. -/

/-- The `SystemMessage`s of the list. -/
def system_messages (msgs : List Msg) : List Msg :=
  msgs.filter fun m =>
    match m with
    | Msg.system _ => true
    | _ => false

/-- The non-`SystemMessage`s of the list. -/
def non_system_messages (msgs : List Msg) : List Msg :=
  msgs.filter fun m =>
    match m with
    | Msg.system _ => false
    | _ => true

/-- Python `lst[:-k]` (note `lst[:-0] = []`). -/
def pySliceToNeg (l : List Msg) (k : Nat) : List Msg :=
  if k = 0 then [] else l.take (l.length - k)

/-- Python `lst[-k:]` (note `lst[-0:] = lst`). -/
def pySliceFromNeg (l : List Msg) (k : Nat) : List Msg :=
  if k = 0 then l else l.drop (l.length - k)

/-- Does this `AIMessage` carry a truthy tool-call list with a call whose
id equals `tid`? -/
def aiCallsId (tid : String) : Msg → Bool
  | Msg.ai _ tcs => !tcs.isEmpty && tcs.any fun tc => tc.id = some tid
  | _ => false

/-- Searches `reversed(old_messages)` for the `AIMessage` owning call
`tid`. -/
def findAiFor (tid : String) (old : List Msg) : Option Msg :=
  old.reverse.find? (aiCallsId tid)

/-- Is there already an `AIMessage` owning call `tid`? -/
def hasAiFor (tid : String) (msgs : List Msg) : Bool :=
  msgs.any (aiCallsId tid)

/-- Step 4.2 of `summarize_messages`: when the kept window starts with a
`ToolMessage` with a truthy id, move its owning `AIMessage` from the old
messages to the front of the window, or drop the orphan tool result. -/
def repairHeadTool (old new : List Msg) : List Msg × List Msg :=
  match new with
  | Msg.tool c (some tid) :: newRest =>
      if tid = "" then (old, Msg.tool c (some tid) :: newRest)
      else
        match findAiFor tid old with
        | some aiMsg =>
            (old.filter fun m => !(decide (m = aiMsg)),
             aiMsg :: Msg.tool c (some tid) :: newRest)
        | none => (old, newRest)
  | Msg.tool c none :: newRest => (old, Msg.tool c none :: newRest)
  | [] => (old, [])
  | Msg.ai c tcs :: newRest => (old, Msg.ai c tcs :: newRest)
  | Msg.human c :: newRest => (old, Msg.human c :: newRest)
  | Msg.system c :: newRest => (old, Msg.system c :: newRest)

/-- Step 4.3 of `summarize_messages`: walk the kept window; a
`ToolMessage` with a truthy id is kept if an owning `AIMessage` is
already in the cleaned prefix, else the owner is pulled out of the old
messages (or the tool result is dropped); id-less tool results are
dropped; other messages are kept. Returns the cleaned window and the
remaining old messages. -/
def cleanNewLoop : List Msg → List Msg → List Msg → List Msg × List Msg
  | cleaned, old, [] => (cleaned, old)
  | cleaned, old, Msg.tool c (some tid) :: rest =>
      if tid = "" then cleanNewLoop cleaned old rest
      else if hasAiFor tid cleaned then
        cleanNewLoop (cleaned ++ [Msg.tool c (some tid)]) old rest
      else
        match findAiFor tid old with
        | some aiMsg =>
            cleanNewLoop (cleaned ++ [aiMsg, Msg.tool c (some tid)])
              (old.filter fun m => !(decide (m = aiMsg))) rest
        | none => cleanNewLoop cleaned old rest
  | cleaned, old, Msg.tool _ none :: rest => cleanNewLoop cleaned old rest
  | cleaned, old, Msg.ai c tcs :: rest =>
      cleanNewLoop (cleaned ++ [Msg.ai c tcs]) old rest
  | cleaned, old, Msg.human c :: rest =>
      cleanNewLoop (cleaned ++ [Msg.human c]) old rest
  | cleaned, old, Msg.system c :: rest =>
      cleanNewLoop (cleaned ++ [Msg.system c]) old rest

/-- The characters of `s` before the first occurrence of `pat`
(`s.split(pat)[0]`). -/
def beforeFirst (pat : List Char) : List Char → List Char
  | [] => []
  | c :: rest =>
      if pat.isPrefixOf (c :: rest) then []
      else c :: beforeFirst pat rest

/-- Step 6 of `summarize_messages`: build the updated system content.
An existing summary section is replaced (keeping the stripped base
before the marker), otherwise the section is appended to the existing
content; with no system message the content is just the section. -/
def mergeSystemContent (sysMsgs : List Msg) (summary : String) : String :=
  match sysMsgs with
  | Msg.system existing :: _ =>
      if containsStr existing summaryMarker then
        let base := pyStrip ⟨beforeFirst summaryMarker.data existing.data⟩
        if base = "" then summaryMarker ++ "\n" ++ summary
        else base ++ "\n\n" ++ summaryMarker ++ "\n" ++ summary
      else
        if existing = "" then summaryMarker ++ "\n" ++ summary
        else existing ++ "\n\n" ++ summaryMarker ++ "\n" ++ summary
  | [] => summaryMarker ++ "\n" ++ summary
  | Msg.human _ :: _ => summaryMarker ++ "\n" ++ summary
  | Msg.ai _ _ :: _ => summaryMarker ++ "\n" ++ summary
  | Msg.tool _ _ :: _ => summaryMarker ++ "\n" ++ summary

/-- `summarize_messages`, parametric in the configured threshold and
keep count, the tool-call rendering `tcR`, the uuid supply `gen` and the
summary-model output `summary`. `none` is the node's `return {}` (no
state update); `some l` is `return {"messages": l}`. -/
def summarize_messages (threshold : ℚ) (keep_count : Nat)
    (tcR : List ToolCall → String) (gen : Nat → String)
    (summary : String) (msgs : List Msg) : Option (List Msg) :=
  let sysMsgs := system_messages msgs
  let nonSys := non_system_messages msgs
  let total := get_messages_tokens tcR msgs
  if total ≤ threshold then none
  else if nonSys.length ≤ keep_count then none
  else
    let old0 := pySliceToNeg nonSys keep_count
    let new0 := pySliceFromNeg nonSys keep_count
    let p1 := repairHeadTool old0 new0
    let p2 := cleanNewLoop [] p1.1 p1.2
    let updated := Msg.system (mergeSystemContent sysMsgs summary)
    some (clean_orphaned_tool_calls gen (updated :: p2.1))

/-- Counts the (possibly overlapping) occurrences of `pat` in `l`. -/
def countOcc (pat : List Char) : List Char → Nat
  | [] => 0
  | c :: rest =>
      (if pat.isPrefixOf (c :: rest) then 1 else 0) + countOcc pat rest

/-- Messages that neither are nor answer tool calls: humans and
assistants without tool calls. -/
def toolFreeMsg : Msg → Bool
  | Msg.human _ => true
  | Msg.ai _ tcs => tcs.isEmpty
  | _ => false

/-- A well-formed conversation: system prompt, user question, a
retrieval block, and a final answer. -/
def msgsW2 : List Msg :=
  [Msg.system "sys", Msg.human "question",
   Msg.ai "calling tool" [⟨some "a", "retrieve_documents", "args"⟩],
   Msg.tool "result text" (some "a"), Msg.ai "final answer" []]

/-- A Chinese-only text just above the default 8000-token threshold. -/
def bigZh : String :=
  ⟨List.replicate 4445 '中'⟩

/-- A conversation over the threshold with a tool-free kept window. -/
def msgsW5 : List Msg :=
  [Msg.system "base prompt", Msg.human "hi there",
   Msg.ai "first answer" [], Msg.human "one more question",
   Msg.ai "second answer" []]

/-! ## Theorems -/

/-! ## Theorems for C1: tenant-isolation filter -/

/-- Helper: overriding the entries with key `kv.1` does not change which
entry a lookup for a different key `k` finds. -/
theorem find_map_override (as : VFilter) (kv : String × FVal) (k : String)
    (hkv : kv.1 ≠ k) :
    List.find? (fun p => p.1 = k)
      (as.map (fun p => if p.1 = kv.1 then kv else p)) =
    List.find? (fun p => p.1 = k) as := by
  induction as with
  | nil => rfl
  | cons a as iha =>
      by_cases hb : a.1 = kv.1
      · have ha : ¬ (a.1 = k) := fun hc => hkv (hb ▸ hc)
        simp only [List.map_cons, List.find?, hb, if_pos, hkv, ha,
          decide_eq_true_eq, decide_eq_false, if_false]
        exact iha
      · simp only [List.map_cons, List.find?, if_neg hb]
        by_cases ha : a.1 = k
        · simp [ha]
        · simp only [ha, decide_eq_true_eq, decide_eq_false, if_false]
          exact iha

/-- Helper: appending an entry with a different key does not change a
lookup. -/
theorem find_append_single (as : VFilter) (kv : String × FVal) (k : String)
    (hkv : kv.1 ≠ k) :
    List.find? (fun p => p.1 = k) (as ++ [kv]) =
    List.find? (fun p => p.1 = k) as := by
  induction as with
  | nil => simp [List.find?, hkv]
  | cons a as iha =>
      by_cases ha : a.1 = k
      · simp [List.find?, ha]
      · simp only [List.cons_append, List.find?, ha, decide_eq_true_eq,
          decide_eq_false, if_false]
        exact iha

/-- Helper: `dictUpdate` does not change the binding of a key that the
update does not mention. -/
theorem dictGet_dictUpdate_of_notkey (acc upd : VFilter) (k : String)
    (h : ∀ kv ∈ upd, kv.1 ≠ k) :
    dictGet (dictUpdate acc upd) k = dictGet acc k := by
  induction upd generalizing acc with
  | nil => rfl
  | cons kv rest ih =>
      have hkv : kv.1 ≠ k := h kv (by simp)
      have hrest : ∀ p ∈ rest, p.1 ≠ k := fun p hp => h p (by simp [hp])
      show dictGet (dictUpdate _ rest) k = _
      rw [ih _ hrest]
      by_cases hmem : acc.any (fun p => p.1 = kv.1) = true
      · beta_reduce
        rw [if_pos hmem]
        unfold dictGet
        rw [find_map_override acc kv k hkv]
      · beta_reduce
        rw [if_neg hmem]
        unfold dictGet
        rw [find_append_single acc kv k hkv]

/-- C1 (counterexample). The claim "for every vector-store search and
every vector-store delete issued by the system, the filter passed to the
store includes the requesting user's `{user_id}` (in both local Chroma
mode and cloud Pinecone mode)" is false in local Chroma mode:
`ChromaStrategy.delete_documents` filters only on `doc_id`, and the
retriever built by `VectorStoreService.get_retriever` in local mode
passes no filter at all. -/
theorem C1_counterexample :
    filterIncludesUser 1 (chromaDeleteDocuments 1 "doc-1") = false ∧
    (getRetrieverSearchOp .local_ 1).filter = none ∧
    filterIncludesUser 1 (getRetrieverSearchOp .local_ 1) = false ∧
    filterIncludesUser 1 (chromaSearch 1 none) = false := by
  decide

/-- C1 (amended). In cloud Pinecone mode every search and delete filter
includes the requesting user's `user_id` (for searches, provided the
caller-supplied extra filter does not itself bind `user_id`, which no
caller does); in local Chroma mode the filter need not mention `user_id`
— tenant isolation is carried by the per-user collection
`user_{user_id}_docs` that every Chroma operation, including the delete
that filters only on `doc_id`, is issued against. -/
theorem C1_amended (uid : Int) (docId : String) (fa : Option VFilter)
    (hfa : ∀ f, fa = some f → ∀ kv ∈ f, kv.1 ≠ "user_id") :
    filterIncludesUser uid (pineconeDeleteDocuments uid docId) = true ∧
    filterIncludesUser uid (pineconeSearch uid fa) = true ∧
    filterIncludesUser uid (pineconeSearchWithScore uid fa) = true ∧
    filterIncludesUser uid (getRetrieverSearchOp .cloud uid) = true ∧
    (chromaDeleteDocuments uid docId).collection = chromaCollectionName uid ∧
    (chromaSearch uid fa).collection = chromaCollectionName uid ∧
    (chromaSearchWithScore uid fa).collection = chromaCollectionName uid ∧
    (getRetrieverSearchOp .local_ uid).collection =
      chromaCollectionName uid := by
  have hsearch :
      filterIncludesUser uid (pineconeSearch uid fa) = true := by
    cases fa with
    | none => simp [filterIncludesUser, pineconeSearch, dictGet, List.find?]
    | some f =>
        have h := dictGet_dictUpdate_of_notkey
          [("user_id", FVal.int uid)] f "user_id" (hfa f rfl)
        simp only [filterIncludesUser, pineconeSearch, h]
        simp [dictGet, List.find?]
  refine ⟨?_, hsearch, ?_, ?_, rfl, rfl, rfl, rfl⟩
  · simp [filterIncludesUser, pineconeDeleteDocuments, dictGet, List.find?]
  · simpa [filterIncludesUser, pineconeSearchWithScore] using hsearch
  · simp [filterIncludesUser, getRetrieverSearchOp, dictGet, List.find?]

/-- C1 (witness for the amended theorem): instantiation at a concrete
user, document and caller filter. -/
theorem C1_amended_witness :
    filterIncludesUser 7 (pineconeDeleteDocuments 7 "d0") = true ∧
    filterIncludesUser 7 (pineconeSearch 7 (some [("doc_id", .str "d0")]))
      = true := by
  have h := C1_amended 7 "d0" (some [("doc_id", FVal.str "d0")])
    (by intro f hf kv hkv; cases hf; simp at hkv; simp [hkv])
  exact ⟨h.1, h.2.1⟩

/-- C3 (code bug). Spec: « `no` and `retry_count ≥ 2` → route to
`generate_answer` (which will emit the "no relevant content" template) ».
The routing half holds, but `generate_answer` only emits the template when
`retry_count ≥ 3`, and within a request `retry_count` never exceeds 2
(it starts at 0 and `rewrite_question` runs only when
`grade_documents` routed to it, which requires `retry_count < 2`): at the
failing input — grader says `no` with `retry_count = 2`, a reachable
state — the run is routed to `generate_answer`, which then produces a
normal answer grounded in the irrelevant tool output instead of the
template. -/
theorem C3_exhausted_retry_code_bug :
    ReachableRetry 2 ∧
    gradeRoute (some .no) 2 = .generateAnswer ∧
    answerMode 2 = .normal ∧
    (∀ r, ReachableRetry r → r ≤ 2) ∧
    (∀ r, r ≤ 2 → answerMode r = .normal) := by
  refine ⟨?_, by decide, by decide, ?_, ?_⟩
  · have h1 : ReachableRetry 1 :=
      ReachableRetry.step 0 (some .no) ReachableRetry.start (by decide)
    exact ReachableRetry.step 1 (some .no) h1 (by decide)
  · intro r h
    induction h with
    | start => omega
    | step r g _ hroute _ =>
        by_cases hr : r ≥ 2
        · exfalso
          cases g with
          | none => simp [gradeRoute, hr] at hroute
          | some s =>
              cases s <;> simp [gradeRoute, hr] at hroute
        · simp only [rewriteRetryUpdate]
          omega
  · intro r hr
    have : ¬ (r ≥ 3) := by omega
    simp [answerMode, this]

/-- C3 (witness): the reachability bound applied at the concrete start
state. -/
theorem C3_exhausted_retry_code_bug_witness :
    (0 : Nat) ≤ 2 ∧ answerMode 0 = .normal :=
  ⟨C3_exhausted_retry_code_bug.2.2.2.1 0 ReachableRetry.start,
   C3_exhausted_retry_code_bug.2.2.2.2 0 (by decide)⟩

/-- C4 (confirmed). For every chat request the `retry_count` observed by
the first node invocation is 0: `_query_langgraph_stream` always supplies
`retry_count = 0` in the invocation input, and `retry_count` has no
accumulating reducer in `RAGState`, so the input value overwrites any
checkpointed value — whatever non-zero `retry_count` the persistent
checkpoint for the thread holds. -/
theorem C4_retry_count_request_scoped (checkpoint : RAGStateL)
    (question : String) :
    RAGStateL.retry_count
      (mergeInvocationInput checkpoint (initialRequestState question)) = 0 :=
  rfl

theorem mem_insertDescBy (f : α → ℚ) (a : α) (l : List α) (x : α) :
    x ∈ insertDescBy f a l ↔ x = a ∨ x ∈ l := by
  induction l with
  | nil => simp [insertDescBy]
  | cons b l ih =>
      by_cases h : f a ≤ f b
      · simp only [insertDescBy, if_pos h, List.mem_cons, ih]
        try tauto
      · simp only [insertDescBy, if_neg h, List.mem_cons]
        try tauto

theorem pairwise_insertDescBy (f : α → ℚ) (a : α) (l : List α)
    (h : l.Pairwise (fun x y => f y ≤ f x)) :
    (insertDescBy f a l).Pairwise (fun x y => f y ≤ f x) := by
  induction l with
  | nil => simp [insertDescBy]
  | cons b l ih =>
      rcases List.pairwise_cons.mp h with ⟨hb, hl⟩
      by_cases hab : f a ≤ f b
      · simp only [insertDescBy, if_pos hab]
        refine List.pairwise_cons.mpr ⟨?_, ih hl⟩
        intro x hx
        rcases (mem_insertDescBy f a l x).mp hx with rfl | hxl
        · exact hab
        · exact hb x hxl
      · simp only [insertDescBy, if_neg hab]
        refine List.pairwise_cons.mpr ⟨?_, h⟩
        intro x hx
        rcases List.mem_cons.mp hx with rfl | hxl
        · exact le_of_lt (lt_of_not_le hab)
        · exact le_trans (hb x hxl) (le_of_lt (lt_of_not_le hab))

theorem pairwise_sortDescBy (f : α → ℚ) (l : List α) :
    (sortDescBy f l).Pairwise (fun x y => f y ≤ f x) := by
  suffices h : ∀ acc : List α, acc.Pairwise (fun x y => f y ≤ f x) →
      (l.foldl (fun acc a => insertDescBy f a acc) acc).Pairwise
        (fun x y => f y ≤ f x) by
    exact h [] (by simp)
  induction l with
  | nil => intro acc hacc; simpa using hacc
  | cons a l ih =>
      intro acc hacc
      exact ih _ (pairwise_insertDescBy f a acc hacc)

theorem mem_sortDescBy (f : α → ℚ) (l : List α) (x : α) :
    x ∈ sortDescBy f l ↔ x ∈ l := by
  suffices h : ∀ acc : List α,
      (x ∈ l.foldl (fun acc a => insertDescBy f a acc) acc ↔
        x ∈ acc ∨ x ∈ l) by
    simpa using h []
  induction l with
  | nil => intro acc; simp
  | cons a l ih =>
      intro acc
      simp only [List.foldl_cons, ih, mem_insertDescBy, List.mem_cons]
      tauto

/-- The fusion key determines the document. -/
theorem hKey_inj (d e : HDoc) (h : hKey d = hKey e) : d = e := by
  cases d; cases e
  simp only [hKey, Prod.mk.injEq] at h
  simp [h.1, h.2]

/-- Generic helper: appending an entry with a different key does not
change an association-list find. -/
theorem afind_append_ne {κ β : Type} [DecidableEq κ] (as : List (κ × β))
    (kv : κ × β) (k : κ) (h : kv.1 ≠ k) :
    (as ++ [kv]).find? (fun p => p.1 = k) = as.find? (fun p => p.1 = k) := by
  induction as with
  | nil => simp [List.find?, h]
  | cons a as iha =>
      by_cases ha : a.1 = k
      · simp [List.find?, ha]
      · simp only [List.cons_append, List.find?, ha, decide_eq_true_eq,
          decide_eq_false, if_false]
        exact iha

/-- Generic helper: appending an entry whose key was absent makes a find
for that key return exactly that entry. -/
theorem afind_append_absent {κ β : Type} [DecidableEq κ]
    (as : List (κ × β)) (kv : κ × β)
    (h : as.find? (fun p => p.1 = kv.1) = none) :
    (as ++ [kv]).find? (fun p => p.1 = kv.1) = some kv := by
  induction as with
  | nil => simp [List.find?]
  | cons a as iha =>
      by_cases ha : a.1 = kv.1
      · simp [List.find?, ha] at h
      · simp only [List.find?, ha, decide_eq_true_eq, decide_eq_false,
          if_false] at h
        simp only [List.cons_append, List.find?, ha, decide_eq_true_eq,
          decide_eq_false, if_false]
        exact iha h

/-- Generic helper: a map that only modifies the value of entries with key
`key` (keeping keys intact) does not change a find for another key. -/
theorem afind_map_bump {κ β : Type} [DecidableEq κ] (as : List (κ × β))
    (key k : κ) (g : β → β) (h : key ≠ k) :
    (as.map (fun p => if p.1 = key then (p.1, g p.2) else p)).find?
        (fun p => p.1 = k) =
      as.find? (fun p => p.1 = k) := by
  induction as with
  | nil => rfl
  | cons a as iha =>
      by_cases hb : a.1 = key
      · have ha : ¬ (a.1 = k) := fun hc => h (hb ▸ hc)
        simp only [List.map_cons, List.find?, hb, if_pos,
          decide_eq_false h, decide_eq_false ha]
        exact iha
      · simp only [List.map_cons, List.find?, if_neg hb]
        by_cases ha : a.1 = k
        · simp [ha]
        · simp only [ha, decide_eq_true_eq, decide_eq_false, if_false]
          exact iha

/-- `any` being false means a find for that key fails. -/
theorem afind_eq_none_of_not_any {κ β : Type} [DecidableEq κ]
    (as : List (κ × β)) (k : κ)
    (h : ¬ (as.any (fun p => p.1 = k) = true)) :
    as.find? (fun p => p.1 = k) = none := by
  rw [List.find?_eq_none]
  intro p hp
  simp only [decide_eq_true_eq]
  intro hk
  exact h (List.any_eq_true.mpr ⟨p, hp, by simp [hk]⟩)

/-- Helper: bumping a key that is present adds `v` to its looked-up
score. -/
theorem lookupScore_map_bump_present (as : List ((String × String) × ℚ))
    (key : String × String) (v : ℚ)
    (h : as.any (fun p => p.1 = key) = true) :
    lookupScore (as.map (fun p => if p.1 = key then (p.1, p.2 + v) else p))
      key = lookupScore as key + v := by
  induction as with
  | nil => simp at h
  | cons a as iha =>
      by_cases ha : a.1 = key
      · simp [lookupScore, lookupKey, List.find?, ha]
      · have h' : as.any (fun p => p.1 = key) = true := by
          simpa [List.any_cons, ha] using h
        simp only [List.map_cons, if_neg ha, lookupScore, lookupKey,
          List.find?, ha, decide_eq_true_eq, decide_eq_false, if_false]
        exact iha h'

/-- How one `scores[key] += v` step changes an arbitrary lookup. -/
theorem lookupScore_bumpScore (s : List ((String × String) × ℚ))
    (key key' : String × String) (v : ℚ) :
    lookupScore (bumpScore s key v) key' =
      lookupScore s key' + (if key' = key then v else 0) := by
  by_cases hpres : s.any (fun p => p.1 = key) = true
  · simp only [bumpScore, if_pos hpres]
    by_cases hk : key' = key
    · subst hk
      rw [if_pos rfl]
      exact lookupScore_map_bump_present s key' v hpres
    · rw [if_neg hk]
      unfold lookupScore lookupKey
      rw [afind_map_bump s key key' (fun x => x + v) (fun hc => hk hc.symm)]
      simp
  · simp only [bumpScore, if_neg hpres]
    have hnone := afind_eq_none_of_not_any s key hpres
    by_cases hk : key' = key
    · subst hk
      unfold lookupScore lookupKey
      rw [afind_append_absent s (key', v) hnone]
      simp [hnone]
    · rw [if_neg hk]
      unfold lookupScore lookupKey
      rw [afind_append_ne s (key, v) key' (fun hc => hk hc.symm)]
      simp

/-- Helper: `findIdx?` misses iff no element satisfies the predicate. -/
theorem findIdx?_eq_none_of_forall {α : Type} (p : α → Bool) (l : List α)
    (h : ∀ x ∈ l, ¬ (p x = true)) : l.findIdx? p = none := by
  induction l with
  | nil => rfl
  | cons a as iha =>
      have ha : p a = false := by
        have := h a (by simp)
        simpa using this
      rw [List.findIdx?_cons, List.findIdx?_succ]
      rw [iha (fun x hx => h x (by simp [hx]))]
      simp [ha]

/-- What one list pass (`rrfAddGo`) adds to the score of an arbitrary
key, provided the list has no duplicate fusion keys. -/
theorem lookupScore_rrfAddGo (c : Nat) (l : List HDoc)
    (hnd : (l.map hKey).Nodup) (s : List ((String × String) × ℚ))
    (r : Nat) (key : String × String) :
    lookupScore (rrfAddGo c s r l) key =
      lookupScore s key +
        idxContribution c r (l.findIdx? (fun e => hKey e = key)) := by
  induction l generalizing s r with
  | nil => simp [rrfAddGo, idxContribution]
  | cons d rest ih =>
      have hnd' : (rest.map hKey).Nodup := (List.nodup_cons.mp hnd).2
      have hdk : hKey d ∉ rest.map hKey := (List.nodup_cons.mp hnd).1
      rw [show rrfAddGo c s r (d :: rest) =
        rrfAddGo c (bumpScore s (hKey d) (1 / ((c : ℚ) + r + 1))) (r + 1)
          rest from rfl]
      rw [ih hnd' _ (r + 1)]
      rw [lookupScore_bumpScore]
      rw [List.findIdx?_cons, List.findIdx?_succ]
      by_cases hd : hKey d = key
      · have hnone : rest.findIdx? (fun e => hKey e = key) = none := by
          refine findIdx?_eq_none_of_forall _ _ (fun x hx => ?_)
          simp only [decide_eq_true_eq]
          intro hxk
          exact hdk (hd ▸ hxk ▸ List.mem_map_of_mem hKey hx)
        have hcond : decide (hKey d = key) = true := by simp [hd]
        rw [hnone, if_pos hcond, if_pos hd.symm]
        simp only [Option.map_none', idxContribution]
        push_cast
        ring
      · have hkd : ¬ (key = hKey d) := fun hc => hd hc.symm
        have hcond : ¬ (decide (hKey d = key) = true) := by simp [hd]
        rw [if_neg hcond, if_neg hkd]
        cases hrest : rest.findIdx? (fun e => hKey e = key) with
        | none => simp [idxContribution]
        | some i =>
            simp only [Option.map_some', idxContribution]
            push_cast
            ring

/-- What the whole fold over all result lists produces: the sum of the
per-list contributions. -/
theorem lookupScore_rrfFold (c : Nat) (lists : List (List HDoc))
    (h : ∀ l ∈ lists, (l.map hKey).Nodup)
    (s : List ((String × String) × ℚ)) (key : String × String) :
    lookupScore (lists.foldl (fun acc l => rrfAddGo c acc 0 l) s) key =
      lookupScore s key +
        (lists.map (fun l =>
          idxContribution c 0 (l.findIdx? (fun e => hKey e = key)))).sum := by
  induction lists generalizing s with
  | nil => simp
  | cons l rest ih =>
      rw [List.foldl_cons,
        ih (fun x hx => h x (List.mem_cons_of_mem l hx))]
      rw [lookupScore_rrfAddGo c l (h l (by simp)) s 0 key]
      simp only [List.map_cons, List.sum_cons]
      ring

theorem lookupKey_isSome_iff_hasKey {β : Type}
    (m : List ((String × String) × β)) (key : String × String) :
    (lookupKey m key).isSome = true ↔ hasKey m key := by
  unfold lookupKey hasKey
  rw [Option.isSome_map']
  rw [List.find?_isSome]
  simp

theorem hasKey_bumpScore (s : List ((String × String) × ℚ))
    (key key' : String × String) (v : ℚ) :
    hasKey (bumpScore s key v) key' ↔ hasKey s key' ∨ key' = key := by
  unfold bumpScore
  by_cases hpres : s.any (fun p => p.1 = key) = true
  · rw [if_pos hpres]
    unfold hasKey
    constructor
    · rintro ⟨p, hp, hpk⟩
      rcases List.mem_map.mp hp with ⟨q, hq, rfl⟩
      by_cases hqk : q.1 = key
      · exact Or.inl ⟨q, hq, by simpa [hqk] using hpk⟩
      · exact Or.inl ⟨q, hq, by simpa [hqk] using hpk⟩
    · rintro (⟨p, hp, hpk⟩ | rfl)
      · by_cases hpkey : p.1 = key
        · exact ⟨(p.1, p.2 + v), List.mem_map.mpr ⟨p, hp, by simp [hpkey]⟩,
            hpk⟩
        · exact ⟨p, List.mem_map.mpr ⟨p, hp, by simp [hpkey]⟩, hpk⟩
      · rcases List.any_eq_true.mp hpres with ⟨p, hp, hpk⟩
        simp only [decide_eq_true_eq] at hpk
        exact ⟨(p.1, p.2 + v), List.mem_map.mpr ⟨p, hp, by simp [hpk]⟩, hpk⟩
  · rw [if_neg hpres]
    unfold hasKey
    simp only [List.mem_append, List.mem_singleton]
    constructor
    · rintro ⟨p, hp | hp, hpk⟩
      · exact Or.inl ⟨p, hp, hpk⟩
      · subst hp; exact Or.inr hpk.symm
    · rintro (⟨p, hp, hpk⟩ | hk)
      · exact ⟨p, Or.inl hp, hpk⟩
      · exact ⟨(key, v), Or.inr rfl, hk.symm⟩

theorem hasKey_rrfAddGo (c : Nat) (l : List HDoc)
    (s : List ((String × String) × ℚ)) (r : Nat) (key : String × String) :
    hasKey (rrfAddGo c s r l) key ↔
      hasKey s key ∨ ∃ d ∈ l, hKey d = key := by
  induction l generalizing s r with
  | nil => simp [rrfAddGo]
  | cons d rest ih =>
      rw [show rrfAddGo c s r (d :: rest) =
        rrfAddGo c (bumpScore s (hKey d) (1 / ((c : ℚ) + r + 1))) (r + 1)
          rest from rfl]
      rw [ih, hasKey_bumpScore]
      simp only [List.mem_cons]
      constructor
      · rintro ((h | h) | ⟨e, he, hek⟩)
        · exact Or.inl h
        · exact Or.inr ⟨d, Or.inl rfl, h.symm⟩
        · exact Or.inr ⟨e, Or.inr he, hek⟩
      · rintro (h | ⟨e, rfl | he, hek⟩)
        · exact Or.inl (Or.inl h)
        · exact Or.inl (Or.inr hek.symm)
        · exact Or.inr ⟨e, he, hek⟩

theorem hasKey_docMapAdd (m : List ((String × String) × HDoc)) (d : HDoc)
    (key : String × String) :
    hasKey (docMapAdd m d) key ↔ hasKey m key ∨ key = hKey d := by
  unfold docMapAdd
  by_cases hpres : m.any (fun p => p.1 = hKey d) = true
  · rw [if_pos hpres]
    constructor
    · exact fun h => Or.inl h
    · rintro (h | rfl)
      · exact h
      · rcases List.any_eq_true.mp hpres with ⟨p, hp, hpk⟩
        simp only [decide_eq_true_eq] at hpk
        exact ⟨p, hp, hpk⟩
  · rw [if_neg hpres]
    unfold hasKey
    simp only [List.mem_append, List.mem_singleton]
    constructor
    · rintro ⟨p, hp | hp, hpk⟩
      · exact Or.inl ⟨p, hp, hpk⟩
      · subst hp; exact Or.inr hpk.symm
    · rintro (⟨p, hp, hpk⟩ | rfl)
      · exact ⟨p, Or.inl hp, hpk⟩
      · exact ⟨(hKey d, d), Or.inr rfl, rfl⟩

theorem hasKey_docMapFoldOne (l : List HDoc)
    (m : List ((String × String) × HDoc)) (key : String × String) :
    hasKey (l.foldl docMapAdd m) key ↔
      hasKey m key ∨ ∃ d ∈ l, hKey d = key := by
  induction l generalizing m with
  | nil => simp
  | cons d rest ih =>
      rw [List.foldl_cons, ih, hasKey_docMapAdd]
      simp only [List.mem_cons]
      constructor
      · rintro ((h | h) | ⟨e, he, hek⟩)
        · exact Or.inl h
        · exact Or.inr ⟨d, Or.inl rfl, h.symm⟩
        · exact Or.inr ⟨e, Or.inr he, hek⟩
      · rintro (h | ⟨e, rfl | he, hek⟩)
        · exact Or.inl (Or.inl h)
        · exact Or.inl (Or.inr hek.symm)
        · exact Or.inr ⟨e, he, hek⟩

theorem hasKey_docMapFold (lists : List (List HDoc))
    (m : List ((String × String) × HDoc)) (key : String × String) :
    hasKey (lists.foldl (fun acc l => l.foldl docMapAdd acc) m) key ↔
      hasKey m key ∨ ∃ l ∈ lists, ∃ d ∈ l, hKey d = key := by
  induction lists generalizing m with
  | nil => simp
  | cons l rest ih =>
      rw [List.foldl_cons, ih, hasKey_docMapFoldOne]
      simp only [List.mem_cons]
      constructor
      · rintro ((h | ⟨d, hd, hdk⟩) | ⟨l', hl', hd⟩)
        · exact Or.inl h
        · exact Or.inr ⟨l, Or.inl rfl, d, hd, hdk⟩
        · exact Or.inr ⟨l', Or.inr hl', hd⟩
      · rintro (h | ⟨l', rfl | hl', d, hd, hdk⟩)
        · exact Or.inl (Or.inl h)
        · exact Or.inl (Or.inr ⟨d, hd, hdk⟩)
        · exact Or.inr ⟨l', hl', d, hd, hdk⟩

theorem hasKey_rrfScoreFold (c : Nat) (lists : List (List HDoc))
    (s : List ((String × String) × ℚ)) (key : String × String) :
    hasKey (lists.foldl (fun acc l => rrfAddGo c acc 0 l) s) key ↔
      hasKey s key ∨ ∃ l ∈ lists, ∃ d ∈ l, hKey d = key := by
  induction lists generalizing s with
  | nil => simp
  | cons l rest ih =>
      rw [List.foldl_cons, ih, hasKey_rrfAddGo]
      simp only [List.mem_cons]
      constructor
      · rintro ((h | ⟨d, hd, hdk⟩) | ⟨l', hl', hd⟩)
        · exact Or.inl h
        · exact Or.inr ⟨l, Or.inl rfl, d, hd, hdk⟩
        · exact Or.inr ⟨l', Or.inr hl', hd⟩
      · rintro (h | ⟨l', rfl | hl', d, hd, hdk⟩)
        · exact Or.inl (Or.inl h)
        · exact Or.inl (Or.inr ⟨d, hd, hdk⟩)
        · exact Or.inr ⟨l', hl', d, hd, hdk⟩

theorem nodupKeys_bumpScore (s : List ((String × String) × ℚ))
    (key : String × String) (v : ℚ)
    (h : (s.map Prod.fst).Nodup) :
    ((bumpScore s key v).map Prod.fst).Nodup := by
  unfold bumpScore
  by_cases hpres : s.any (fun p => p.1 = key) = true
  · rw [if_pos hpres]
    have : (s.map (fun p => if p.1 = key then (p.1, p.2 + v) else p)).map
        Prod.fst = s.map Prod.fst := by
      rw [List.map_map]
      refine List.map_congr_left (fun p _ => ?_)
      by_cases hp : p.1 = key <;> simp [hp]
    rw [this]
    exact h
  · rw [if_neg hpres]
    rw [List.map_append]
    rw [List.nodup_append]
    refine ⟨h, by simp, ?_⟩
    intro x hx
    simp only [List.map_cons, List.map_nil, List.mem_singleton]
    rintro rfl
    rcases List.mem_map.mp hx with ⟨p, hp, hpk⟩
    exact hpres (List.any_eq_true.mpr ⟨p, hp, by simp [hpk]⟩)

theorem nodupKeys_rrfAddGo (c : Nat) (l : List HDoc)
    (s : List ((String × String) × ℚ)) (r : Nat)
    (h : (s.map Prod.fst).Nodup) :
    ((rrfAddGo c s r l).map Prod.fst).Nodup := by
  induction l generalizing s r with
  | nil => exact h
  | cons d rest ih =>
      exact ih _ _ (nodupKeys_bumpScore s (hKey d) _ h)

theorem nodupKeys_rrfFold (c : Nat) (lists : List (List HDoc))
    (s : List ((String × String) × ℚ))
    (h : (s.map Prod.fst).Nodup) :
    ((lists.foldl (fun acc l => rrfAddGo c acc 0 l) s).map Prod.fst).Nodup := by
  induction lists generalizing s with
  | nil => exact h
  | cons l rest ih =>
      exact ih _ (nodupKeys_rrfAddGo c l s 0 h)

/-- In an association list with distinct keys, a find for a member's key
returns exactly that member. -/
theorem afind_of_mem_nodupKeys {β : Type}
    (s : List ((String × String) × β)) (p : (String × String) × β)
    (h : (s.map Prod.fst).Nodup) (hp : p ∈ s) :
    s.find? (fun q => q.1 = p.1) = some p := by
  induction s with
  | nil => simp at hp
  | cons a as iha =>
      rcases List.mem_cons.mp hp with rfl | hmem
      · simp [List.find?]
      · have ha : a.1 ≠ p.1 := by
          intro hc
          have : a.1 ∈ as.map Prod.fst :=
            hc ▸ List.mem_map_of_mem Prod.fst hmem
          exact (List.nodup_cons.mp (by simpa using h)).1 this
        simp only [List.find?, ha, decide_eq_true_eq, decide_eq_false,
          if_false]
        exact iha (List.nodup_cons.mp (by simpa using h)).2 hmem

/-- One-list version of the `doc_map` entry invariant. -/
theorem docMapAddFold_entries (pool : List HDoc) (l : List HDoc)
    (m : List ((String × String) × HDoc))
    (hm : ∀ p ∈ m, p.1 = hKey p.2 ∧ p.2 ∈ pool)
    (hld : ∀ d ∈ l, d ∈ pool) :
    ∀ p ∈ l.foldl docMapAdd m, p.1 = hKey p.2 ∧ p.2 ∈ pool := by
  induction l generalizing m with
  | nil => exact hm
  | cons d dl ihd =>
      rw [List.foldl_cons]
      refine ihd _ ?_ (fun x hx => hld x (List.mem_cons_of_mem d hx))
      intro p hp
      unfold docMapAdd at hp
      by_cases hpres : m.any (fun q => q.1 = hKey d) = true
      · rw [if_pos hpres] at hp
        exact hm p hp
      · rw [if_neg hpres] at hp
        rcases List.mem_append.mp hp with hmem | hmem
        · exact hm p hmem
        · rcases List.mem_singleton.mp hmem with rfl
          exact ⟨rfl, hld d (by simp)⟩

/-- All `doc_map` entries key a document by its own fusion key and hold a
document drawn from the processed lists. -/
theorem docMap_entries (pool : List HDoc) (lists : List (List HDoc))
    (m : List ((String × String) × HDoc))
    (hm : ∀ p ∈ m, p.1 = hKey p.2 ∧ p.2 ∈ pool)
    (hl : ∀ l ∈ lists, ∀ d ∈ l, d ∈ pool) :
    ∀ p ∈ lists.foldl (fun acc l => l.foldl docMapAdd acc) m,
      p.1 = hKey p.2 ∧ p.2 ∈ pool := by
  induction lists generalizing m with
  | nil => exact hm
  | cons l rest ih =>
      rw [List.foldl_cons]
      exact ih _
        (docMapAddFold_entries pool l m hm (hl l (by simp)))
        (fun x hx => hl x (List.mem_cons_of_mem l hx))

/-- Full behaviour of `reciprocal_rank_fusion` on result lists that are
already truncated to `k` and have no duplicate fusion keys: at most `k`
documents come back, all drawn from the input lists, ordered by
non-increasing RRF score, and any candidate left out scores no higher
than every returned document (returned only when the output is full). -/
theorem rrf_spec (lists : List (List HDoc)) (k c : Nat)
    (hnd : ∀ l ∈ lists, (l.map hKey).Nodup)
    (htk : ∀ l ∈ lists, l.take k = l) :
    (reciprocal_rank_fusion lists k c).length ≤ k ∧
    (∀ d ∈ reciprocal_rank_fusion lists k c, ∃ l ∈ lists, d ∈ l) ∧
    (reciprocal_rank_fusion lists k c).Pairwise (fun x y =>
      rrfScore lists k c y ≤ rrfScore lists k c x) ∧
    (∀ d, (∃ l ∈ lists, d ∈ l) → d ∉ reciprocal_rank_fusion lists k c →
      (reciprocal_rank_fusion lists k c).length = k ∧
      ∀ e ∈ reciprocal_rank_fusion lists k c,
        rrfScore lists k c d ≤ rrfScore lists k c e) := by
  classical
  have htrunc : lists.map (fun l => l.take k) = lists := by
    rw [List.map_congr_left htk, List.map_id']
  have hout : reciprocal_rank_fusion lists k c =
      ((sortDescBy (fun p => p.2)
        (lists.foldl (fun acc l => rrfAddGo c acc 0 l) [])).map
        (fun p => (lookupKey
          (lists.foldl (fun acc l => l.foldl docMapAdd acc) []) p.1).getD
          ⟨"", ""⟩)).take k := by
    unfold reciprocal_rank_fusion
    rw [htrunc]
  set scores := lists.foldl (fun acc l => rrfAddGo c acc 0 l) [] with hscores
  set docMap := lists.foldl (fun acc l => l.foldl docMapAdd acc) []
    with hdocMap
  set fuse : ((String × String) × ℚ) → HDoc :=
    fun p => (lookupKey docMap p.1).getD ⟨"", ""⟩ with hfuse
  set F := (sortDescBy (fun p => p.2) scores).map fuse with hF
  -- the score formula, per key
  have hscoreEq : ∀ d : HDoc,
      lookupScore scores (hKey d) = rrfScore lists k c d := by
    intro d
    rw [hscores, lookupScore_rrfFold c lists hnd [] (hKey d)]
    unfold rrfScore
    have : lookupScore [] (hKey d) = 0 := rfl
    rw [this, zero_add]
    congr 1
    refine List.map_congr_left (fun l hl => ?_)
    rw [htk l hl]
    cases hfi : l.findIdx? (fun e => hKey e = hKey d) with
    | none => simp [idxContribution]
    | some i =>
        simp only [idxContribution]
        push_cast
        ring
  -- scores have distinct keys, so a member's stored value is its score
  have hnodupKeys : (scores.map Prod.fst).Nodup :=
    nodupKeys_rrfFold c lists [] (by simp)
  have hvalue : ∀ p ∈ scores, lookupScore scores p.1 = p.2 := by
    intro p hp
    unfold lookupScore lookupKey
    rw [afind_of_mem_nodupKeys scores p hnodupKeys hp]
    rfl
  -- the document fused back for an item of the score dict
  have hfuseSpec : ∀ p ∈ scores,
      hKey (fuse p) = p.1 ∧ ∃ l ∈ lists, fuse p ∈ l := by
    intro p hp
    have hdocs : ∃ l ∈ lists, ∃ d ∈ l, hKey d = p.1 := by
      have hhk' : hasKey (lists.foldl (fun acc l => rrfAddGo c acc 0 l) [])
          p.1 := by
        rw [← hscores]; exact ⟨p, hp, rfl⟩
      rcases (hasKey_rrfScoreFold c lists [] p.1).mp hhk' with h | h
      · rcases h with ⟨q, hq, _⟩; simp at hq
      · exact h
    have hdm : hasKey docMap p.1 := by
      rw [hdocMap, hasKey_docMapFold]
      exact Or.inr hdocs
    have hsome : (lookupKey docMap p.1).isSome = true :=
      (lookupKey_isSome_iff_hasKey docMap p.1).mpr hdm
    rcases Option.isSome_iff_exists.mp hsome with ⟨dd, hdd⟩
    have hfind : ∃ q, docMap.find? (fun r => r.1 = p.1) = some q ∧
        q.2 = dd := by
      unfold lookupKey at hdd
      rcases Option.map_eq_some'.mp hdd with ⟨q, hq1, hq2⟩
      exact ⟨q, hq1, hq2⟩
    rcases hfind with ⟨q, hq1, hq2⟩
    have hqmem : q ∈ docMap := List.mem_of_find?_eq_some hq1
    have hqkey : q.1 = p.1 := by
      have := List.find?_some hq1
      simpa using this
    have hqmem' : q ∈ lists.foldl (fun acc l => l.foldl docMapAdd acc) [] := by
      rw [← hdocMap]; exact hqmem
    have hqinv := docMap_entries lists.flatten lists [] (by simp)
      (fun l hl d hd => List.mem_flatten.mpr ⟨l, hl, hd⟩) q hqmem'
    have hfusev : fuse p = dd := by
      rw [hfuse]
      simp only [hdd, Option.getD_some]
    refine ⟨?_, ?_⟩
    · rw [hfusev, ← hq2, ← hqinv.1, hqkey]
    · rcases List.mem_flatten.mp hqinv.2 with ⟨l, hl, hdl⟩
      exact ⟨l, hl, by rw [hfusev, ← hq2]; exact hdl⟩
  -- score of a fused document equals the stored item value
  have hfuseScore : ∀ p ∈ scores, rrfScore lists k c (fuse p) = p.2 := by
    intro p hp
    rw [← hscoreEq (fuse p), (hfuseSpec p hp).1, hvalue p hp]
  -- pairwise sortedness of the full fused list
  have hFpair : F.Pairwise (fun x y =>
      rrfScore lists k c y ≤ rrfScore lists k c x) := by
    rw [hF, List.pairwise_map]
    have hsorted := pairwise_sortDescBy (fun p => p.2) scores
    refine hsorted.imp_of_mem (fun {p q} hp hq hle => ?_)
    rw [hfuseScore p ((mem_sortDescBy _ scores p).mp hp),
      hfuseScore q ((mem_sortDescBy _ scores q).mp hq)]
    exact hle
  refine ⟨?_, ?_, ?_, ?_⟩
  · rw [hout]
    simp
  · intro d hd
    rw [hout] at hd
    have hdF : d ∈ F := List.mem_of_mem_take (hF ▸ hd)
    rcases List.mem_map.mp hdF with ⟨p, hp, rfl⟩
    exact (hfuseSpec p ((mem_sortDescBy _ scores p).mp hp)).2
  · rw [hout]
    exact (hF ▸ hFpair).sublist (List.take_sublist k F)
  · intro d hdmem hdout
    have hdF : d ∈ F := by
      rcases hdmem with ⟨l, hl, hdl⟩
      have hhk : hasKey scores (hKey d) := by
        rw [hscores, hasKey_rrfScoreFold]
        exact Or.inr ⟨l, hl, d, hdl, rfl⟩
      rcases hhk with ⟨p, hp, hpk⟩
      have hfd : fuse p = d := by
        have h1 := (hfuseSpec p hp).1
        exact hKey_inj _ _ (by rw [h1, hpk])
      rw [hF]
      exact List.mem_map.mpr ⟨p,
        (mem_sortDescBy _ scores p).mpr hp, hfd⟩
    rw [hout] at hdout ⊢
    have hsplit : F.take k ++ F.drop k = F := List.take_append_drop k F
    have hddrop : d ∈ F.drop k := by
      rcases (List.mem_append.mp (hsplit ▸ hdF)) with h | h
      · exact absurd (hF ▸ h) hdout
      · exact h
    have hklt : k < F.length := by
      by_contra hk
      push_neg at hk
      rw [List.drop_eq_nil_of_le hk] at hddrop
      simp at hddrop
    constructor
    · rw [List.length_take]
      omega
    · intro e he
      have hpair := hFpair
      rw [← hsplit, List.pairwise_append] at hpair
      exact hpair.2.2 e (hF ▸ he) d hddrop

/-- C7 (confirmed). When both the dense and the BM25 lists are available
(and carry no duplicate fusion keys within a list), `HybridRetriever
.invoke` returns at most `top_k` documents drawn from the two truncated
lists, ordered by non-increasing Reciprocal-Rank-Fusion score
`score(d) = Σᵢ 1/(60 + rankᵢ(d))` (1-based ranks in each list truncated
to its first `top_k` entries), every omitted candidate scoring no higher
than each returned one; when BM25 produced nothing (cloud dense store,
missing dependency, empty corpus) the pure dense results are returned. -/
theorem C7_hybrid_rrf (topK : Nat) (vector bm25 : List HDoc)
    (hv : ((vector.take topK).map hKey).Nodup)
    (hb : ((bm25.take topK).map hKey).Nodup) :
    (bm25.take topK = [] → hybridInvoke topK vector bm25 = vector.take topK) ∧
    (hybridInvoke topK vector bm25).length ≤ topK ∧
    (∀ d ∈ hybridInvoke topK vector bm25,
      d ∈ bm25.take topK ∨ d ∈ vector.take topK) ∧
    (bm25.take topK ≠ [] →
      (hybridInvoke topK vector bm25).Pairwise (fun x y =>
        rrfScore [bm25.take topK, vector.take topK] topK 60 y ≤
          rrfScore [bm25.take topK, vector.take topK] topK 60 x)) ∧
    (bm25.take topK ≠ [] → ∀ d,
      (d ∈ bm25.take topK ∨ d ∈ vector.take topK) →
      d ∉ hybridInvoke topK vector bm25 →
      (hybridInvoke topK vector bm25).length = topK ∧
      ∀ e ∈ hybridInvoke topK vector bm25,
        rrfScore [bm25.take topK, vector.take topK] topK 60 d ≤
          rrfScore [bm25.take topK, vector.take topK] topK 60 e) := by
  by_cases hbe : bm25.take topK = []
  · have hpure : hybridInvoke topK vector bm25 = vector.take topK := by
      simp [hybridInvoke, hbe]
    refine ⟨fun _ => hpure, ?_, ?_, fun h => absurd hbe h, fun h => absurd hbe h⟩
    · rw [hpure]
      simp
    · intro d hd
      rw [hpure] at hd
      exact Or.inr hd
  · have hne : ¬ ((bm25.take topK).isEmpty = true) := by
      simp [List.isEmpty_iff, hbe]
    have hinv : hybridInvoke topK vector bm25 =
        reciprocal_rank_fusion [bm25.take topK, vector.take topK] topK 60 := by
      unfold hybridInvoke
      rw [if_neg hne]
    have hnd : ∀ l ∈ [bm25.take topK, vector.take topK],
        (l.map hKey).Nodup := by
      intro l hl
      rcases List.mem_cons.mp hl with rfl | hl
      · exact hb
      · rcases List.mem_cons.mp hl with rfl | hl
        · exact hv
        · simp at hl
    have htk : ∀ l ∈ [bm25.take topK, vector.take topK],
        l.take topK = l := by
      intro l hl
      rcases List.mem_cons.mp hl with rfl | hl
      · rw [List.take_take, min_self]
      · rcases List.mem_cons.mp hl with rfl | hl
        · rw [List.take_take, min_self]
        · simp at hl
    have hspec := rrf_spec [bm25.take topK, vector.take topK] topK 60 hnd htk
    refine ⟨fun h => absurd h hbe, ?_, ?_, fun _ => ?_, fun _ => ?_⟩
    · rw [hinv]; exact hspec.1
    · intro d hd
      rw [hinv] at hd
      rcases hspec.2.1 d hd with ⟨l, hl, hdl⟩
      rcases List.mem_cons.mp hl with rfl | hl
      · exact Or.inl hdl
      · rcases List.mem_cons.mp hl with rfl | hl
        · exact Or.inr hdl
        · simp at hl
    · rw [hinv]; exact hspec.2.2.1
    · intro d hdmem hdout
      rw [hinv] at hdout ⊢
      refine hspec.2.2.2 d ?_ hdout
      rcases hdmem with h | h
      · exact ⟨bm25.take topK, by simp, h⟩
      · exact ⟨vector.take topK, by simp, h⟩

/-- C7 (witness): instantiation at a concrete pair of result lists. -/
theorem C7_hybrid_rrf_witness :
    (hybridInvoke 2 [⟨"a", "m"⟩, ⟨"b", "m"⟩] [⟨"b", "m"⟩]).length ≤ 2 :=
  (C7_hybrid_rrf 2 [⟨"a", "m"⟩, ⟨"b", "m"⟩] [⟨"b", "m"⟩]
    (by decide) (by decide)).2.1

/-- C6 (confirmed). With reranking enabled and a threshold configured:
the candidate set kept by the tool is sorted by `rerank_score`
descending, contains only candidates at or above the threshold (all
below-threshold candidates are dropped), has at most `top_n` elements,
and when threshold filtering leaves zero candidates the tool returns
exactly the string "No relevant documents found.". -/
theorem C6_rerank_threshold (childDocs : List RDoc) (scores : List ℚ)
    (topN : Nat) (t : ℚ) :
    (rerank childDocs scores topN (some t)).Pairwise
      (fun x y => getScore y ≤ getScore x) ∧
    (∀ d ∈ rerank childDocs scores topN (some t), t ≤ getScore d) ∧
    (rerank childDocs scores topN (some t)).length ≤ topN ∧
    (rerank childDocs scores topN (some t) = [] →
      retrieve_documents_reranked childDocs scores topN (some t) =
        noRelevantSentinel) := by
  by_cases hempty : childDocs.isEmpty = true
  · refine ⟨?_, ?_, ?_, ?_⟩ <;>
      simp [rerank, retrieve_documents_reranked, hempty]
  · have hr : rerank childDocs scores topN (some t) =
        ((sortDescBy getScore
          ((childDocs.zip scores).map
            (fun p => { p.1 with rerankScore := some p.2 }) ++
            childDocs.drop scores.length)).filter
          (fun d => t ≤ getScore d)).take topN := by
      unfold rerank
      rw [if_neg hempty]
    refine ⟨?_, ?_, ?_, ?_⟩
    · rw [hr]
      exact List.Pairwise.sublist
        ((List.take_sublist _ _).trans (List.filter_sublist _))
        (pairwise_sortDescBy getScore _)
    · intro d hd
      rw [hr] at hd
      have := List.mem_of_mem_take hd
      have := List.of_mem_filter this
      simpa using this
    · rw [hr, List.length_take]
      omega
    · intro hnil
      unfold retrieve_documents_reranked
      rw [if_neg hempty]
      have : (rerank childDocs scores topN (some t)).isEmpty = true := by
        rw [hnil]; rfl
      simp only [this, if_pos]

/-- C6 (witness): a single candidate scored below the threshold is
dropped and the sentinel string is returned. -/
theorem C6_rerank_threshold_witness :
    retrieve_documents_reranked [⟨"some text", none⟩] [-1] 3 (some 0) =
      noRelevantSentinel :=
  (C6_rerank_threshold [⟨"some text", none⟩] [-1] 3 0).2.2.2 (by decide)

/-- Folding the dict constructor over entries with fresh, pairwise
distinct keys just appends them. -/
theorem foldl_dictInsertP_of_nodup (l : List (String × PDoc))
    (acc : List (String × PDoc))
    (hnd : (l.map Prod.fst).Nodup)
    (hdisj : ∀ kv ∈ l, ∀ p ∈ acc, p.1 ≠ kv.1) :
    l.foldl dictInsertP acc = acc ++ l := by
  induction l generalizing acc with
  | nil => simp
  | cons kv rest ih =>
      rw [List.foldl_cons]
      have habs : ¬ (acc.any (fun p => p.1 = kv.1) = true) := by
        intro h
        rcases List.any_eq_true.mp h with ⟨p, hp, hpk⟩
        simp only [decide_eq_true_eq] at hpk
        exact hdisj kv (by simp) p hp hpk
      rw [show dictInsertP acc kv = acc ++ [kv] by
        unfold dictInsertP; rw [if_neg habs]]
      have hnd2 : kv.1 ∉ rest.map Prod.fst ∧ (rest.map Prod.fst).Nodup := by
        rw [List.map_cons, List.nodup_cons] at hnd
        exact hnd
      rw [ih (acc ++ [kv]) hnd2.2]
      · simp
      · intro kv' hkv' p hp
        rcases List.mem_append.mp hp with hpa | hps
        · exact hdisj kv' (List.mem_cons_of_mem kv hkv') p hpa
        · rcases List.mem_singleton.mp hps with rfl
          intro hc
          have h1 : kv'.1 ∈ rest.map Prod.fst :=
            List.mem_map_of_mem Prod.fst hkv'
          exact hnd2.1 (hc ▸ h1)

/-- C8 (counterexample). The claim's "within a single transaction … no
observable partial intermediate state" is false: the DAO commits the
`DELETE` in one transaction (`execute_update`) and the `executemany`
insert in a second one (`get_cursor`), so a reader between the two
commits observes an empty parent map for the key — distinct from both
the before and the after state. -/
theorem C8_counterexample :
    (save_parent_map_states 1 "d" [("p1", ⟨"new", "{}"⟩)]
        [⟨1, "d", "p0", "old", "{}"⟩]).length = 2 ∧
    get_parent_map 1 "d"
      ((save_parent_map_states 1 "d" [("p1", ⟨"new", "{}"⟩)]
        [⟨1, "d", "p0", "old", "{}"⟩]).getD 0 []) = [] ∧
    get_parent_map 1 "d" [⟨1, "d", "p0", "old", "{}"⟩] =
      [("p0", ⟨"old", "{}"⟩)] ∧
    get_parent_map 1 "d"
      ((save_parent_map_states 1 "d" [("p1", ⟨"new", "{}"⟩)]
        [⟨1, "d", "p0", "old", "{}"⟩]).getD 1 []) =
      [("p1", ⟨"new", "{}"⟩)] := by
  decide

/-- C8 (amended). `save_parent_map` is delete-all-then-insert-all, but
split over two transactions (the intermediate deleted state is
observable). The round trip nonetheless holds: after `save_parent_map`
completes, `get_parent_map` returns exactly the saved map with NUL bytes
stripped from each parent's content, regardless of what was stored for
that `(user_id, doc_id)` before, and the rows of every other
`(user_id, doc_id)` key are untouched. -/
theorem C8_amended (uid : Int) (did : String) (m : List (String × PDoc))
    (tbl : PTable) (hnd : (m.map Prod.fst).Nodup) :
    get_parent_map uid did (save_parent_map uid did m tbl) =
      m.map (fun p => (p.1, PDoc.mk (stripNulStr p.2.content) p.2.meta)) ∧
    (∀ uid' did', ¬ (uid' = uid ∧ did' = did) →
      get_parent_map uid' did' (save_parent_map uid did m tbl) =
        get_parent_map uid' did' tbl) := by
  have hdel : ∀ uid' did',
      (delete_parent_map uid did tbl).filter
        (fun r => r.user_id = uid' ∧ r.doc_id = did') =
      if uid' = uid ∧ did' = did then []
      else tbl.filter (fun r => r.user_id = uid' ∧ r.doc_id = did') := by
    intro uid' did'
    unfold delete_parent_map
    rw [List.filter_filter]
    by_cases hk : uid' = uid ∧ did' = did
    · rw [if_pos hk]
      refine List.filter_eq_nil_iff.mpr (fun r _ => ?_)
      by_cases hm : r.user_id = uid' ∧ r.doc_id = did'
      · have hmm : r.user_id = uid ∧ r.doc_id = did :=
          ⟨hk.1 ▸ hm.1, hk.2 ▸ hm.2⟩
        simp [hmm]
      · simp [hm]
    · rw [if_neg hk]
      refine List.filter_congr (fun r _ => ?_)
      by_cases hm : r.user_id = uid' ∧ r.doc_id = did'
      · have hnot : ¬ (r.user_id = uid ∧ r.doc_id = did) := by
          intro hc
          exact hk ⟨hm.1.symm.trans hc.1, hm.2.symm.trans hc.2⟩
        have h1 : decide (r.user_id = uid' ∧ r.doc_id = did') = true := by
          simp [hm]
        have h2 : decide (¬ (r.user_id = uid ∧ r.doc_id = did)) = true := by
          simp [hnot]
        simp only [h1, h2, Bool.and_true]
      · simp [hm]
  have hrowsSelf :
      (parentRows uid did m).filter
        (fun r => r.user_id = uid ∧ r.doc_id = did) =
      parentRows uid did m := by
    refine List.filter_eq_self.mpr (fun r hr => ?_)
    rcases List.mem_map.mp hr with ⟨p, _, rfl⟩
    simp
  constructor
  · by_cases hm : m.isEmpty = true
    · have hmn : m = [] := List.isEmpty_iff.mp hm
      subst hmn
      unfold save_parent_map get_parent_map
      simp only [List.isEmpty_nil, if_pos]
      rw [hdel uid did, if_pos ⟨rfl, rfl⟩]
      simp
    · unfold save_parent_map get_parent_map
      rw [if_neg hm, List.filter_append, hdel uid did, if_pos ⟨rfl, rfl⟩,
        hrowsSelf, List.nil_append]
      have hmap : (parentRows uid did m).map
          (fun r => (r.parent_id, PDoc.mk r.content r.meta)) =
          m.map (fun p => (p.1, PDoc.mk (stripNulStr p.2.content)
            p.2.meta)) := by
        unfold parentRows
        rw [List.map_map]
        rfl
      rw [hmap]
      rw [foldl_dictInsertP_of_nodup _ [] ?hnd (by simp)]
      · simp
      case hnd =>
        have : (m.map (fun p => (p.1, PDoc.mk (stripNulStr p.2.content)
            p.2.meta))).map Prod.fst = m.map Prod.fst := by
          rw [List.map_map]
          rfl
        rw [this]
        exact hnd
  · intro uid' did' hk
    by_cases hm : m.isEmpty = true
    · unfold save_parent_map get_parent_map
      rw [if_pos hm, hdel uid' did', if_neg hk]
    · unfold save_parent_map get_parent_map
      rw [if_neg hm, List.filter_append, hdel uid' did', if_neg hk]
      have hrows : (parentRows uid did m).filter
          (fun r => r.user_id = uid' ∧ r.doc_id = did') = [] := by
        refine List.filter_eq_nil_iff.mpr (fun r hr => ?_)
        rcases List.mem_map.mp hr with ⟨p, _, rfl⟩
        simp only [Bool.not_eq_true, decide_eq_false_iff_not]
        intro hc
        exact hk ⟨hc.1.symm, hc.2.symm⟩
      rw [hrows, List.append_nil]

/-- C8 (witness for the amended theorem): a concrete overwrite — the old
parent row disappears, the new map (with NUL bytes stripped) is exactly
what a subsequent read returns. -/
theorem C8_amended_witness :
    get_parent_map 1 "d"
      (save_parent_map 1 "d" [("p1", ⟨"a\x00b", "{}"⟩)]
        [⟨1, "d", "p0", "old", "{}"⟩]) = [("p1", ⟨"ab", "{}"⟩)] := by
  have h := (C8_amended 1 "d" [("p1", ⟨"a\x00b", "{}"⟩)]
    [⟨1, "d", "p0", "old", "{}"⟩] (by decide)).1
  rw [h]
  decide

theorem occursP_tail (pat : List Char) (c : Char) (rest : List Char)
    (h : occursP pat (c :: rest) = false) : occursP pat rest = false := by
  unfold occursP at h
  rcases Bool.or_eq_false_iff.mp h with ⟨_, h2⟩
  exact h2

theorem not_prefix_of_not_occursP (pat : List Char) (c : Char)
    (rest : List Char) (h : occursP pat (c :: rest) = false) :
    pat.isPrefixOf (c :: rest) = false := by
  unfold occursP at h
  exact (Bool.or_eq_false_iff.mp h).1

theorem dropWhile_pyWs_id (l : List Char)
    (h : ∀ c, l.head? = some c → pyWs c = false) :
    l.dropWhile pyWs = l := by
  cases l with
  | nil => rfl
  | cons a as =>
      rw [List.dropWhile_cons]
      rw [h a rfl]
      simp

theorem stripChars_id (s : List Char)
    (h1 : ∀ c, s.head? = some c → pyWs c = false)
    (h2 : ∀ c, s.getLast? = some c → pyWs c = false) :
    stripChars s = s := by
  unfold stripChars
  rw [dropWhile_pyWs_id s h1]
  rw [dropWhile_pyWs_id s.reverse (fun c hc => h2 c (by
    rw [← List.head?_reverse]; exact hc))]
  exact List.reverse_reverse s

theorem subHtmlGo_id (s : List Char) : ∀ (st : Option (List Char)),
    hasTagGo (st.map (fun buf => !buf.isEmpty)) s = false →
    subHtmlGo st s =
      (match st with | none => s | some buf => '<' :: (buf ++ s)) := by
  induction s with
  | nil =>
      rintro (_ | buf) _
      · rfl
      · simp [subHtmlGo]
  | cons c rest ih =>
      rintro (_ | buf) h
      · by_cases hc : c = '<'
        · subst hc
          rw [show subHtmlGo none ('<' :: rest) = subHtmlGo (some []) rest
            by simp [subHtmlGo]]
          have h' : hasTagGo (some false) rest = false := by
            simpa [hasTagGo] using h
          have := ih (some []) (by simpa using h')
          simpa using this
        · rw [show subHtmlGo none (c :: rest) = c :: subHtmlGo none rest
            by simp [subHtmlGo, hc]]
          have h' : hasTagGo none rest = false := by
            simpa [hasTagGo, hc] using h
          rw [ih none (by simpa using h')]
      · by_cases hc : c = '>'
        · subst hc
          have hbuf : buf.isEmpty = true := by
            by_contra hb
            rw [Bool.not_eq_true] at hb
            have hT : hasTagGo (some (!buf.isEmpty)) ('>' :: rest) =
                true := by
              simp [hasTagGo, hb]
            rw [show Option.map (fun buf => !buf.isEmpty) (some buf) =
              some (!buf.isEmpty) from rfl, hT] at h
            exact absurd h (by simp)
          have hbufnil : buf = [] := List.isEmpty_iff.mp hbuf
          subst hbufnil
          rw [show subHtmlGo (some []) ('>' :: rest) =
            '<' :: '>' :: subHtmlGo none rest by simp [subHtmlGo]]
          have h' : hasTagGo none rest = false := by
            have heq : hasTagGo (some false) ('>' :: rest) =
                hasTagGo none rest := by
              simp [hasTagGo]
            rw [show Option.map (fun buf => !buf.isEmpty)
              (some ([] : List Char)) = some false from rfl, heq] at h
            exact h
          rw [ih none (by simpa using h')]
          simp
        · rw [show subHtmlGo (some buf) (c :: rest) =
            subHtmlGo (some (buf ++ [c])) rest by simp [subHtmlGo, hc]]
          have h' : hasTagGo (some true) rest = false := by
            simpa [hasTagGo, hc] using h
          have hne : (buf ++ [c]).isEmpty = false := by simp
          have := ih (some (buf ++ [c])) (by
            rw [show Option.map (fun buf => !buf.isEmpty)
              (some (buf ++ [c])) = some (!(buf ++ [c]).isEmpty) from rfl,
              hne]
            exact h')
          simpa using this

theorem subHtml_id (s : List Char) (h : hasTag s = false) :
    subHtml s = s := by
  have := subHtmlGo_id s none (by simpa [hasTag] using h)
  simpa [subHtml] using this

theorem collapseNLGo_id (s : List Char) : ∀ (seen : Nat),
    occursP ['\n', '\n', '\n'] s = false →
    (2 ≤ seen → s.head? ≠ some '\n') →
    (seen = 1 → (['\n', '\n'].isPrefixOf s) = false) →
    collapseNLGo seen s = s := by
  induction s with
  | nil => intro seen _ _ _; rfl
  | cons c rest ih =>
      intro seen hocc h2 h1
      by_cases hc : c = '\n'
      · subst hc
        have hlt : seen < 2 := by
          by_contra hge
          exact h2 (by omega) rfl
        rw [show collapseNLGo seen ('\n' :: rest) =
          '\n' :: collapseNLGo (seen + 1) rest by simp [collapseNLGo, hlt]]
        have hocc' := occursP_tail _ _ _ hocc
        have h01 : seen = 0 ∨ seen = 1 := by omega
        rcases h01 with h0 | h0
        · subst h0
          rw [ih 1 hocc' (by omega) ?pr]
          case pr =>
            intro _
            by_contra hp
            simp only [Bool.not_eq_false] at hp
            have : (['\n', '\n', '\n'] : List Char).isPrefixOf
                ('\n' :: rest) = true := by
              simp only [List.isPrefixOf] at hp ⊢
              simpa using hp
            rw [not_prefix_of_not_occursP _ _ _ hocc] at this
            exact Bool.false_eq_true.mp this
        · subst h0
          rw [ih 2 hocc' ?hd (by omega)]
          case hd =>
            intro _
            intro hr
            have hp := h1 rfl
            cases rest with
            | nil => simp at hr
            | cons d tl =>
                rcases Option.some.inj hr with rfl
                simp [List.isPrefixOf] at hp
      · rw [show collapseNLGo seen (c :: rest) =
          c :: collapseNLGo 0 rest by simp [collapseNLGo, hc]]
        rw [ih 0 (occursP_tail _ _ _ hocc) (by omega) (by omega)]

theorem collapseNL_id (s : List Char)
    (h : occursP ['\n', '\n', '\n'] s = false) : collapseNL s = s :=
  collapseNLGo_id s 0 h (by omega) (by omega)

theorem contains_tab_tail (c : Char) (rest : List Char)
    (h : (c :: rest).contains '\t' = false) :
    rest.contains '\t' = false := by
  simp only [List.contains_cons, Bool.or_eq_false_iff] at h
  exact h.2

theorem lastCond_tail (c : Char) (rest : List Char)
    (h : ∀ d, (c :: rest).getLast? = some d → isBlankCh d = false) :
    ∀ d, rest.getLast? = some d → isBlankCh d = false := by
  intro d hd
  cases rest with
  | nil => simp at hd
  | cons x xs =>
      exact h d (by rw [List.getLast?_cons_cons]; exact hd)

theorem stripTrailGo_id (s : List Char) : ∀ (pend : List Char),
    occursP [' ', '\n'] s = false →
    occursP [' ', ' '] s = false →
    s.contains '\t' = false →
    (∀ c, s.getLast? = some c → isBlankCh c = false) →
    (pend = [] ∨ (pend = [' '] ∧ ∃ c rest, s = c :: rest ∧
      isBlankCh c = false ∧ c ≠ '\n')) →
    stripTrailGo pend s = pend ++ s := by
  induction s with
  | nil =>
      rintro pend _ _ _ _ (rfl | ⟨_, c, rest, hcr, _⟩)
      · rfl
      · exact absurd hcr (by simp)
  | cons c rest ih =>
      rintro pend hsn hss htab hlast (rfl | ⟨rfl, c', rest', hcr, hbl, hnl⟩)
      · by_cases hbc : isBlankCh c = true
        · have hcsp : c = ' ' := by
            rcases Bool.or_eq_true_iff.mp hbc with h | h
            · exact of_decide_eq_true h
            · exfalso
              have hct : c = '\t' := of_decide_eq_true h
              subst hct
              simp [List.contains_cons] at htab
          subst hcsp
          rw [show stripTrailGo [] (' ' :: rest) =
            stripTrailGo [' '] rest by simp [stripTrailGo, isBlankCh]]
          cases rest with
          | nil =>
              exfalso
              have := hlast ' ' (by simp)
              simp [isBlankCh] at this
          | cons c2 rest2 =>
              have hc2sp : ¬ (c2 = ' ') := by
                intro hc2
                subst hc2
                have := not_prefix_of_not_occursP _ _ _ hss
                simp [List.isPrefixOf] at this
              have hc2nl : ¬ (c2 = '\n') := by
                intro hc2
                subst hc2
                have := not_prefix_of_not_occursP _ _ _ hsn
                simp [List.isPrefixOf] at this
              have hc2tab : ¬ (c2 = '\t') := by
                intro hc2
                subst hc2
                simp [List.contains_cons] at htab
              have hc2bl : isBlankCh c2 = false := by
                simp [isBlankCh, hc2sp, hc2tab]
              rw [ih [' '] (occursP_tail _ _ _ hsn)
                (occursP_tail _ _ _ hss)
                (contains_tab_tail _ _ htab)
                (lastCond_tail _ _ hlast)
                (Or.inr ⟨rfl, c2, rest2, rfl, hc2bl, hc2nl⟩)]
              simp
        · rw [Bool.not_eq_true] at hbc
          by_cases hnl : c = '\n'
          · subst hnl
            rw [show stripTrailGo [] ('\n' :: rest) =
              '\n' :: stripTrailGo [] rest by simp [stripTrailGo, isBlankCh]]
            rw [ih [] (occursP_tail _ _ _ hsn) (occursP_tail _ _ _ hss)
              (contains_tab_tail _ _ htab)
              (lastCond_tail _ _ hlast) (Or.inl rfl)]
            simp
          · rw [show stripTrailGo [] (c :: rest) =
              [] ++ c :: stripTrailGo [] rest by
                simp [stripTrailGo, hbc, hnl]]
            rw [ih [] (occursP_tail _ _ _ hsn) (occursP_tail _ _ _ hss)
              (contains_tab_tail _ _ htab)
              (lastCond_tail _ _ hlast) (Or.inl rfl)]
            simp
      · cases hcr
        rw [show stripTrailGo [' '] (c :: rest) =
          [' '] ++ c :: stripTrailGo [] rest by
            simp [stripTrailGo, hbl, hnl]]
        rw [ih [] (occursP_tail _ _ _ hsn) (occursP_tail _ _ _ hss)
          (contains_tab_tail _ _ htab)
          (lastCond_tail _ _ hlast) (Or.inl rfl)]
        simp

theorem stripTrail_id (s : List Char)
    (hsn : occursP [' ', '\n'] s = false)
    (hss : occursP [' ', ' '] s = false)
    (htab : s.contains '\t' = false)
    (hlast : ∀ c, s.getLast? = some c → isBlankCh c = false) :
    stripTrail s = s :=
  stripTrailGo_id s [] hsn hss htab hlast (Or.inl rfl)

theorem collapseSpacesGo_id (s : List Char) : ∀ (inRun : Bool),
    occursP [' ', ' '] s = false →
    (inRun = true → s.head? ≠ some ' ') →
    collapseSpacesGo inRun s = s := by
  induction s with
  | nil => intro inRun _ _; rfl
  | cons c rest ih =>
      intro inRun hss hrun
      by_cases hc : c = ' '
      · subst hc
        have hnr : inRun = false := by
          by_contra hr
          rw [Bool.not_eq_false] at hr
          exact hrun hr rfl
        subst hnr
        rw [show collapseSpacesGo false (' ' :: rest) =
          ' ' :: collapseSpacesGo true rest by simp [collapseSpacesGo]]
        rw [ih true (occursP_tail _ _ _ hss) ?hd]
        case hd =>
          intro _ hr
          cases rest with
          | nil => simp at hr
          | cons d tl =>
              rcases Option.some.inj hr with rfl
              have := not_prefix_of_not_occursP _ _ _ hss
              simp [List.isPrefixOf] at this
      · rw [show collapseSpacesGo inRun (c :: rest) =
          c :: collapseSpacesGo false rest by simp [collapseSpacesGo, hc]]
        rw [ih false (occursP_tail _ _ _ hss) (by simp)]

theorem collapseSpaces_id (s : List Char)
    (h : occursP [' ', ' '] s = false) : collapseSpaces s = s :=
  collapseSpacesGo_id s false h (by simp)

theorem normNLGo_id (s : List Char)
    (hsn : occursP [' ', '\n'] s = false)
    (hns : occursP ['\n', ' '] s = false) :
    normNLGo s = s := by
  induction s with
  | nil => rfl
  | cons c1 tail ih =>
      cases tail with
      | nil => rfl
      | cons c2 tail2 =>
          have hmatch : ¬ (c1 = ' ' ∧ c2 = '\n') := by
            rintro ⟨rfl, rfl⟩
            have := not_prefix_of_not_occursP _ _ _ hsn
            simp [List.isPrefixOf] at this
          have hnlsp : c1 = '\n' → ¬ (c2 = ' ') := by
            rintro rfl rfl
            have := not_prefix_of_not_occursP _ _ _ hns
            simp [List.isPrefixOf] at this
          have ihtail := ih (occursP_tail _ _ _ hsn)
            (occursP_tail _ _ _ hns)
          cases tail2 with
          | nil =>
              by_cases hc1 : c1 = '\n'
              · subst hc1
                have hc2 := hnlsp rfl
                simp [normNLGo, hmatch, hc2]
              · simp [normNLGo, hmatch, hc1]
          | cons c3 tail3 =>
              by_cases hc1 : c1 = '\n'
              · subst hc1
                have hc2 := hnlsp rfl
                rw [show normNLGo ('\n' :: c2 :: c3 :: tail3) =
                  '\n' :: normNLGo (c2 :: c3 :: tail3) by
                    simp [normNLGo, hmatch, hc2]]
                rw [ihtail]
              · rw [show normNLGo (c1 :: c2 :: c3 :: tail3) =
                  c1 :: normNLGo (c2 :: c3 :: tail3) by
                    simp [normNLGo, hmatch, hc1]]
                rw [ihtail]

theorem replaceTab_id (s : List Char) (h : s.contains '\t' = false) :
    replaceTab s = s := by
  unfold replaceTab
  induction s with
  | nil => rfl
  | cons c rest ih =>
      have hc : ¬ (c = '\t') := by
        intro hc
        subst hc
        simp [List.contains_cons] at h
      rw [List.map_cons, if_neg hc, ih (contains_tab_tail _ _ h)]

/-- On a text already in cleaned normal form, `clean_text` with default
options is the identity. -/
theorem cleanTextD_fixed (t : List Char) (h : cleanNF t = true) :
    cleanTextD t = t := by
  have hc := h
  unfold cleanNF at hc
  simp only [Bool.and_eq_true, Bool.not_eq_true'] at hc
  obtain ⟨⟨⟨⟨⟨⟨⟨hhead, hlast⟩, htag⟩, h3n⟩, hss⟩, hsn⟩, hns⟩, htab⟩ := hc
  have hhead' : ∀ c, t.head? = some c → pyWs c = false := by
    intro c hcc
    rw [hcc] at hhead
    simpa using hhead
  have hlast' : ∀ c, t.getLast? = some c → pyWs c = false := by
    intro c hcc
    rw [hcc] at hlast
    simpa using hlast
  have hlastBlank : ∀ c, t.getLast? = some c → isBlankCh c = false := by
    intro c hcc
    have := hlast' c hcc
    unfold pyWs at this
    unfold isBlankCh
    rcases Bool.or_eq_false_iff.mp this with ⟨h1, _⟩
    rcases Bool.or_eq_false_iff.mp h1 with ⟨h2, _⟩
    rcases Bool.or_eq_false_iff.mp h2 with ⟨h3, _⟩
    rcases Bool.or_eq_false_iff.mp h3 with ⟨h4, h5⟩
    simp only [h4, h5]
  by_cases ht : t = []
  · simp [ht, cleanTextD, clean_text]
  · show cleanTextD t = t
    have hshow : cleanTextD t =
        (if (stripChars (replaceTab (normNLGo (collapseSpaces
            (stripTrail (collapseNL (subHtml (stripChars t)))))))).length <
            0 then []
          else stripChars (replaceTab (normNLGo (collapseSpaces
            (stripTrail (collapseNL (subHtml (stripChars t)))))))) := by
      unfold cleanTextD clean_text
      rw [if_neg ht]
      rfl
    rw [hshow]
    rw [stripChars_id t hhead' hlast']
    rw [subHtml_id t htag]
    rw [collapseNL_id t h3n]
    rw [stripTrail_id t hsn hss htab hlastBlank]
    rw [collapseSpaces_id t hss, normNLGo_id t hsn hns]
    rw [replaceTab_id t htab]
    rw [stripChars_id t hhead' hlast']
    simp

/-- C10 (counterexample). `clean_text` with defaults is **not**
idempotent: in `"a\n\n \n\nb"` the whitespace-only line is removed by the
per-line trailing-whitespace pass only *after* the newline-collapsing
pass has already run, leaving four consecutive newlines that a second
application collapses further. -/
theorem C10_counterexample :
    cleanTextD (cleanTextD ("a\n\n \n\nb".data)) ≠
      cleanTextD ("a\n\n \n\nb".data) := by
  decide

/-- C10 (amended). `clean_text` with defaults is idempotent exactly on
outputs already in cleaned normal form (stripped; no HTML-tag match; no
run of three newlines; no double space; no space adjacent to a newline;
no tab): whenever `clean_text s` is in that form — which the order of the
regex passes fails to guarantee when whitespace-only lines or tabs
re-merge newline or space runs after the collapsing passes have run —
re-cleaning changes nothing. -/
theorem C10_clean_text_idempotent_on_nf (s : List Char)
    (h : cleanNF (cleanTextD s) = true) :
    cleanTextD (cleanTextD s) = cleanTextD s :=
  cleanTextD_fixed (cleanTextD s) h

/-- C10 (witness): a typical already-clean text. -/
theorem C10_clean_text_idempotent_witness :
    cleanTextD (cleanTextD ("hello world\nsecond line".data)) =
      cleanTextD ("hello world\nsecond line".data) :=
  C10_clean_text_idempotent_on_nf ("hello world\nsecond line".data)
    (by decide)

theorem parseStage_inl_false (env : ProcEnv) (ft : String)
    (b : Bool) (m : String)
    (h : parseStage env ft = Except.ok (Sum.inl (b, m))) : b = false := by
  simp only [parseStage] at h
  repeat' split at h
  all_goals (cases h <;> rfl)

theorem afterParse_ok_true (env : ProcEnv) (raw_text : List Char)
    (page_count : Option Nat) (s : String)
    (h : afterParse env raw_text page_count = Except.ok (true, s)) :
    ∃ n, s = Nat.repr n := by
  simp only [afterParse] at h
  repeat' split at h
  all_goals (cases h <;> exact ⟨_, rfl⟩)

theorem processDocumentExc_ok_true (env : ProcEnv) (ft : String)
    (s : String) (h : processDocumentExc env ft = Except.ok (true, s)) :
    ∃ n, s = Nat.repr n := by
  unfold processDocumentExc at h
  cases hp : parseStage env ft with
  | error e =>
      rw [hp] at h
      cases h
  | ok pr =>
      rw [hp] at h
      match pr, h with
      | Sum.inl r, h =>
          have h1 : Except.ok r = Except.ok ((true : Bool), s) := h
          injection h1 with h2
          have hb := parseStage_inl_false env ft true s (h2 ▸ hp)
          cases hb
      | Sum.inr (raw_text, page_count), h =>
          exact afterParse_ok_true env raw_text page_count s h

/-- C9. Ingestion totality at the pipeline boundary: whatever the
effectful callees do, `process_document` returns an explicit pair — any
exception `e` raised inside the `try` block surfaces as
`(False, str(e))` rather than propagating, and every `(True, s)` result
carries a chunk count rendered as a decimal string
(`str(len(documents))`). -/
theorem C9_process_document_total (env : ProcEnv) (ft : String) :
    (∀ e, processDocumentExc env ft = Except.error e →
        processDocument env ft = (false, e)) ∧
    (∀ s, processDocument env ft = (true, s) → ∃ n, s = Nat.repr n) := by
  refine ⟨fun e he => ?_, fun s hs => ?_⟩
  · unfold processDocument
    rw [he]
  · unfold processDocument at hs
    cases hx : processDocumentExc env ft with
    | error e =>
        rw [hx] at hs
        cases hs
    | ok r =>
        rw [hx] at hs
        have hs' : r = (true, s) := hs
        rw [hs'] at hx
        exact processDocumentExc_ok_true env ft s hx

/-- C9 (witness): a raising download oracle surfaces as
`(False, str(e))`. -/
theorem C9_process_document_total_witness :
    processDocument procEnvW ".pdf" = (false, "download failed") :=
  (C9_process_document_total procEnvW ".pdf").1 "download failed" rfl

theorem findWindow_wf (l : List Msg) (h : WFm l) :
    ∀ (ids : List String) (n : Nat), findWindow ids (l.take n) = [] := by
  induction h with
  | nil => intro ids n; simp [findWindow]
  | sys c rest hr ih =>
      intro ids n
      cases n with
      | zero => simp [findWindow]
      | succ n => simpa [findWindow] using ih ids n
  | hum c rest hr ih =>
      intro ids n
      cases n with
      | zero => simp [findWindow]
      | succ n => simp [findWindow]
  | aiPlain c rest hr ih =>
      intro ids n
      cases n with
      | zero => simp [findWindow]
      | succ n => simp [findWindow]
  | block c tc tcont i rest htc hne hr ih =>
      intro ids n
      cases n with
      | zero => simp [findWindow]
      | succ n => simp [findWindow]

theorem finalizeScan_of_no_missing (acc : List Msg) (st : ScanSt)
    (h : (st.ids.filter fun i => !(st.found.contains i)).isEmpty = true) :
    finalizeScan acc st = acc := by
  unfold finalizeScan
  simp only [h]
  rfl

theorem validateGo_wf (gen : Nat → String) (l : List Msg) (h : WFm l) :
    (∀ ctr acc, validateGo gen ctr acc none l = acc.reverse ++ l) ∧
    (∀ ctr acc st,
        ((st.ids.filter fun i => !(st.found.contains i)).isEmpty = true) →
        validateGo gen ctr acc (some st) l = acc.reverse ++ l) := by
  induction h with
  | nil =>
      refine ⟨fun ctr acc => by simp [validateGo], fun ctr acc st hst => ?_⟩
      simp [validateGo, finalizeScan_of_no_missing acc st hst]
  | sys c rest hr ih =>
      refine ⟨fun ctr acc => ?_, fun ctr acc st hst => ?_⟩
      · rw [validateGo, ih.1]
        simp
      · rw [validateGo, ih.2 _ _ _ hst]
        simp
  | hum c rest hr ih =>
      refine ⟨fun ctr acc => ?_, fun ctr acc st hst => ?_⟩
      · rw [validateGo, ih.1]
        simp
      · rw [validateGo, finalizeScan_of_no_missing acc st hst, ih.1]
        simp
  | aiPlain c rest hr ih =>
      refine ⟨fun ctr acc => ?_, fun ctr acc st hst => ?_⟩
      · rw [validateGo, if_pos (by simp), ih.1]
        simp
      · rw [validateGo, if_pos (by simp),
          finalizeScan_of_no_missing acc st hst, ih.1]
        simp
  | block c tc tcont i rest htc hne hr ih =>
      have htceq : tc = ⟨some i, tc.name, tc.args⟩ := by
        cases tc with
        | mk tid tn ta =>
            cases htc
            rfl
      have hfix : fixTcs gen = fun ctr tcs =>
          fixTcs gen ctr tcs := rfl
      have hfix1 : ∀ ctr, fixTcs gen ctr [tc] = ([tc], [i], ctr) := by
        intro ctr
        rw [htceq]
        simp [fixTcs]
      have hcont : ([i].contains i) = true := by simp
      have hnomiss :
          (([i].filter fun j => !([i].contains j)).isEmpty = true) := by
        simp
      refine ⟨fun ctr acc => ?_, fun ctr acc st hst => ?_⟩
      · rw [validateGo]
        rw [if_neg (by simp)]
        simp only [hfix1]
        rw [validateGo, if_pos hcont]
        rw [(ih.2 ctr
              (Msg.tool tcont (some i) :: Msg.ai c [tc] :: acc)
              ⟨c, [tc], [i], [i]⟩ hnomiss :)]
        simp
      · rw [validateGo]
        rw [if_neg (by simp)]
        rw [finalizeScan_of_no_missing acc st hst]
        simp only [hfix1]
        rw [validateGo, if_pos hcont]
        rw [(ih.2 ctr
              (Msg.tool tcont (some i) :: Msg.ai c [tc] :: acc)
              ⟨c, [tc], [i], [i]⟩ hnomiss :)]
        simp

theorem cleanGo_wf (l : List Msg) (h : WFm l) : cleanGo none l = l := by
  induction h with
  | nil => rfl
  | sys c rest hr ih => rw [cleanGo, ih]
  | hum c rest hr ih => rw [cleanGo, ih]
  | aiPlain c rest hr ih => rw [cleanGo, if_pos (by simp), ih]
  | block c tc tcont i rest htc hne hr ih =>
      have htceq : tc = ⟨some i, tc.name, tc.args⟩ := by
        cases tc with
        | mk tid tn ta =>
            cases htc
            rfl
      have hids : truthyIds [tc] = [i] := by
        rw [htceq]
        simp [truthyIds, hne]
      have hwin :
          findWindow [i] ((Msg.tool tcont (some i) :: rest).take 9) =
            [i] := by
        rw [show (9 : Nat) = 8 + 1 from rfl, List.take_succ_cons]
        rw [findWindow, if_pos (by simp [hne])]
        rw [findWindow_wf rest hr [i] 8]
      rw [cleanGo, if_neg (by simp)]
      simp only [hids, hwin]
      rw [if_pos (by simp [setEqS])]
      rw [cleanGo, ih]

theorem aok_wf (l : List Msg) (h : WFm l) :
    aokGo none l = true ∧ ∀ i, aokGo (some [(i, 1)]) l = true := by
  induction h with
  | nil =>
      exact ⟨rfl, fun i => by simp [aokGo, closeSeg]⟩
  | sys c rest hr ih =>
      exact ⟨by rw [aokGo, ih.1], fun i => by rw [aokGo, ih.2 i]⟩
  | hum c rest hr ih =>
      refine ⟨by rw [aokGo, ih.1]; rfl, fun i => ?_⟩
      rw [aokGo, ih.1]
      simp [closeSeg]
  | aiPlain c rest hr ih =>
      refine ⟨?_, fun i => ?_⟩
      · rw [aokGo]
        simp only [List.isEmpty_nil, if_pos rfl]
        rw [ih.1]
        rfl
      · rw [aokGo]
        simp only [List.isEmpty_nil, if_pos rfl]
        rw [ih.1]
        simp [closeSeg]
  | block c tc tcont i rest htc hne hr ih =>
      have htceq : tc = ⟨some i, tc.name, tc.args⟩ := by
        cases tc with
        | mk tid tn ta =>
            cases htc
            rfl
      have hinit : initCalls [tc] = some [(i, 0)] := by
        rw [htceq]
        simp [initCalls, hne]
      have hbody : aokGo (some [(i, 0)])
          (Msg.tool tcont (some i) :: rest) = true := by
        rw [aokGo, if_pos (by simp)]
        have hbump : bumpTok [(i, 0)] i = [(i, 1)] := by
          simp [bumpTok]
        rw [hbump, ih.2 i]
      refine ⟨?_, fun j => ?_⟩
      · rw [aokGo]
        rw [if_neg (by simp)]
        rw [hinit]
        simp [closeSeg, hbody]
      · rw [aokGo]
        rw [if_neg (by simp)]
        rw [hinit]
        simp [closeSeg, hbody]

/-- C2 (counterexample). The integrity pass does **not** enforce the
claimed invariant: an assistant tool call answered by *two* tool results
with the same id passes through `_clean_orphaned_tool_calls` with both
results kept, so "exactly one following tool message" fails on its
output. -/
theorem C2_counterexample :
    anthropic_ok (clean_orphaned_tool_calls (fun n => Nat.repr n)
      [Msg.ai "" [⟨some "a", "retrieve_documents", "{}"⟩],
       Msg.tool "result 1" (some "a"),
       Msg.tool "result 2" (some "a")]) = false := by
  decide

/-- C2 (amended). On well-formed lists — system, human and call-free
assistant messages, with every tool-calling assistant a two-message
block of one single non-empty-id call followed immediately by its unique
tool result — the integrity pass is the identity and its output
satisfies the claimed Anthropic-style invariant. On other inputs the
pass can keep duplicate or empty-id tool pairings (see the
counterexample), so the invariant is guaranteed only for such inputs. -/
theorem clean_orphaned_wf (gen : Nat → String) (l : List Msg)
    (h : WFm l) : clean_orphaned_tool_calls gen l = l := by
  unfold clean_orphaned_tool_calls validate_and_fix_tool_calls
  by_cases he : l.isEmpty
  · simp [he]
  · simp only [he, if_neg, Bool.false_eq_true, if_false]
    rw [(validateGo_wf gen l h).1 0 []]
    simpa using cleanGo_wf l h

theorem C2_tool_call_integrity (gen : Nat → String) (msgs : List Msg)
    (h : WFm msgs) :
    clean_orphaned_tool_calls gen msgs = msgs ∧
    anthropic_ok msgs = true :=
  ⟨clean_orphaned_wf gen msgs h, (aok_wf msgs h).1⟩

theorem msgsW2_wf : WFm msgsW2 :=
  WFm.sys _ _ (WFm.hum _ _
    (WFm.block "calling tool" ⟨some "a", "retrieve_documents", "args"⟩
      "result text" "a" _ rfl (by decide)
      (WFm.aiPlain _ _ WFm.nil)))

/-- C2 (witness): the pass keeps a well-formed conversation unchanged
and the invariant holds on it. -/
theorem C2_tool_call_integrity_witness :
    clean_orphaned_tool_calls (fun n => Nat.repr n) msgsW2 = msgsW2 ∧
    anthropic_ok msgsW2 = true :=
  C2_tool_call_integrity (fun n => Nat.repr n) msgsW2 msgsW2_wf

/-! ## Theorems for C5: summarization replacement -/

theorem countP_replicate_char (p : Char → Bool) (c : Char) (n : Nat) :
    (List.replicate n c).countP p = if p c then n else 0 := by
  induction n with
  | zero => simp
  | succ n ih =>
      rw [List.replicate_succ, List.countP_cons, ih]
      by_cases h : p c = true
      · simp [h]
      · simp [h]

theorem estimate_bigZh :
    estimate_tokens_chinese (List.replicate 4445 '中') = 8001 := by
  have h1 : isCJKChar '中' = true := by decide
  have h2 : (!(isCJKChar '中') && !(pyWs '中')) = false := by decide
  unfold estimate_tokens_chinese
  rw [countP_replicate_char, countP_replicate_char]
  simp only [h1, h2, if_true, if_false]
  norm_num

theorem tokens_bigZh :
    get_messages_tokens (fun _ => "") [Msg.human bigZh] = 8001 := by
  unfold get_messages_tokens
  simp only [List.map_cons, List.map_nil, msgTokStr]
  rw [show ([bigZh.data] : List (List Char)).flatten = bigZh.data by simp]
  exact estimate_bigZh

/-- C5 (counterexample). A single oversized user message: the estimated
total (8001 tokens for 4445 CJK characters) exceeds the default
threshold 8000, yet `summarize_messages` returns `{}` — no system
message, no summary — because the non-system message count (1) does not
exceed `MESSAGE_SUMMARIZATION_KEEP_MESSAGES` (20). -/
theorem C5_counterexample :
    8000 < get_messages_tokens (fun _ => "") [Msg.human bigZh] ∧
    summarize_messages 8000 20 (fun _ => "") (fun n => Nat.repr n) "s"
      [Msg.human bigZh] = none := by
  constructor
  · rw [tokens_bigZh]
    norm_num
  · simp only [summarize_messages]
    rw [tokens_bigZh]
    rw [if_neg (by norm_num)]
    rw [if_pos (by simp [non_system_messages])]

theorem strData_append (s t : String) : (s ++ t).data = s.data ++ t.data := by
  cases s
  cases t
  rfl

theorem countOcc_cons_sep (pat : List Char) (c : Char) (hc : c ∉ pat)
    (hne : pat ≠ []) (b : List Char) :
    countOcc pat (c :: b) = countOcc pat b := by
  cases pat with
  | nil => cases hne rfl
  | cons p ps =>
      have hpc : ¬(p = c) := by
        intro h
        exact hc (by rw [← h]; exact List.mem_cons_self p ps)
      rw [countOcc]
      simp [List.isPrefixOf, hpc]

theorem isPrefixOf_sep (pat : List Char) (c : Char) (hc : c ∉ pat) :
    ∀ (a b : List Char), pat.isPrefixOf (a ++ c :: b) = pat.isPrefixOf a := by
  induction pat with
  | nil => intro a b; simp [List.isPrefixOf]
  | cons p ps ih =>
      intro a b
      cases a with
      | nil =>
          have hpc : ¬(p = c) := by
            intro h
            exact hc (by rw [← h]; exact List.mem_cons_self p ps)
          simp [List.isPrefixOf, hpc]
      | cons x a1 =>
          have hc2 : c ∉ ps := fun h => hc (List.mem_cons_of_mem p h)
          simp only [List.cons_append, List.isPrefixOf, List.append_eq]
          rw [ih hc2 a1 b]

theorem countOcc_sep (pat : List Char) (c : Char) (hc : c ∉ pat)
    (hne : pat ≠ []) :
    ∀ (a b : List Char),
      countOcc pat (a ++ c :: b) = countOcc pat a + countOcc pat b := by
  intro a b
  induction a with
  | nil =>
      simp only [List.nil_append]
      rw [countOcc_cons_sep pat c hc hne b]
      simp [countOcc]
  | cons x a1 ih =>
      rw [List.cons_append, countOcc, ih, countOcc]
      rw [show pat.isPrefixOf (x :: (a1 ++ c :: b)) =
            pat.isPrefixOf (x :: a1) from by
        have h := isPrefixOf_sep pat c hc (x :: a1) b
        simpa using h]
      omega

theorem countOcc_eq_zero_of_not_occursP (pat l : List Char)
    (h : occursP pat l = false) : countOcc pat l = 0 := by
  induction l with
  | nil => rfl
  | cons c rest ih =>
      rw [countOcc]
      rw [not_prefix_of_not_occursP pat c rest h]
      simpa using ih (occursP_tail pat c rest h)

theorem occursP_infix_iff (pat l : List Char) :
    occursP pat l = true ↔ pat <:+: l := by
  induction l with
  | nil =>
      rw [occursP]
      constructor
      · intro h
        have hp : pat = [] := by
          cases pat with
          | nil => rfl
          | cons p ps => cases h
        subst hp
        exact List.nil_infix
      · intro h
        have hp : pat = [] := by
          have := List.eq_nil_of_sublist_nil h.sublist
          exact this
        rw [hp]
        rfl
  | cons c rest ih =>
      rw [occursP, Bool.or_eq_true_iff, List.isPrefixOf_iff_prefix, ih]
      exact (List.infix_cons_iff).symm

theorem beforeFirst_prefix (pat : List Char) :
    ∀ l, (beforeFirst pat l) <+: l := by
  intro l
  induction l with
  | nil => simp [beforeFirst]
  | cons c rest ih =>
      rw [beforeFirst]
      by_cases h : pat.isPrefixOf (c :: rest) = true
      · simp [h]
      · rw [if_neg (by simpa using h)]
        exact List.cons_prefix_cons.mpr ⟨rfl, ih⟩

theorem occursP_beforeFirst (pat : List Char) (hne : pat ≠ []) :
    ∀ l, occursP pat (beforeFirst pat l) = false := by
  intro l
  induction l with
  | nil =>
      cases pat with
      | nil => cases hne rfl
      | cons p ps => rfl
  | cons c rest ih =>
      rw [beforeFirst]
      by_cases h : pat.isPrefixOf (c :: rest) = true
      · rw [if_pos (by simpa using h)]
        cases pat with
        | nil => cases hne rfl
        | cons p ps => rfl
      · rw [if_neg (by simpa using h)]
        rw [occursP]
        have hpre : pat.isPrefixOf (c :: beforeFirst pat rest) = false := by
          cases hx : pat.isPrefixOf (c :: beforeFirst pat rest) with
          | false => rfl
          | true =>
              exfalso
              have h1 : pat <+: c :: beforeFirst pat rest :=
                (List.isPrefixOf_iff_prefix).mp hx
              have h2 : (c :: beforeFirst pat rest) <+: (c :: rest) :=
                List.cons_prefix_cons.mpr ⟨rfl, beforeFirst_prefix pat rest⟩
              exact h ((List.isPrefixOf_iff_prefix).mpr (h1.trans h2))
        rw [hpre, ih]
        rfl

theorem infix_stripChars (l : List Char) : stripChars l <:+: l := by
  have h1 : l.dropWhile pyWs <:+ l := List.dropWhile_suffix pyWs
  have h2 : (l.dropWhile pyWs).reverse.dropWhile pyWs <:+
      (l.dropWhile pyWs).reverse := List.dropWhile_suffix pyWs
  have h3 := List.reverse_prefix.mpr h2
  rw [List.reverse_reverse] at h3
  exact (h3.isInfix).trans h1.isInfix

theorem occursP_false_of_infix (pat l l2 : List Char) (hinf : l2 <:+: l)
    (h : occursP pat l = false) : occursP pat l2 = false := by
  cases hx : occursP pat l2 with
  | false => rfl
  | true =>
      exfalso
      have h1 : pat <:+: l2 := (occursP_infix_iff pat l2).mp hx
      have h2 : occursP pat l = true :=
        (occursP_infix_iff pat l).mpr (h1.trans hinf)
      rw [h2] at h
      cases h

theorem countOcc_mergeSystemContent (sysMsgs : List Msg) (summary : String)
    (h3 : containsStr summary summaryMarker = false) :
    countOcc summaryMarker.data
      (mergeSystemContent sysMsgs summary).data = 1 := by
  have hs : occursP summaryMarker.data summary.data = false := h3
  have hnl : ('\n' : Char) ∉ summaryMarker.data := by decide
  have hne : summaryMarker.data ≠ [] := by decide
  have hself : countOcc summaryMarker.data summaryMarker.data = 1 := by
    decide
  have hplain : countOcc summaryMarker.data
      (summaryMarker.data ++ '\n' :: summary.data) = 1 := by
    rw [countOcc_sep _ _ hnl hne summaryMarker.data summary.data]
    rw [countOcc_eq_zero_of_not_occursP _ _ hs, hself]
  have hX : ∀ X : List Char, countOcc summaryMarker.data X = 0 →
      countOcc summaryMarker.data
        (X ++ '\n' :: ('\n' ::
          (summaryMarker.data ++ '\n' :: summary.data))) = 1 := by
    intro X hXz
    rw [countOcc_sep _ _ hnl hne X]
    rw [hXz, countOcc_cons_sep _ _ hnl hne, hplain]
  have hformA : ∀ s : String,
      ((s ++ "\n\n" ++ summaryMarker ++ "\n" ++ summary)).data =
        s.data ++ '\n' :: ('\n' ::
          (summaryMarker.data ++ '\n' :: summary.data)) := by
    intro s
    simp only [strData_append]
    simp [List.append_assoc]
  have hformB : ((summaryMarker ++ "\n" ++ summary)).data =
      summaryMarker.data ++ '\n' :: summary.data := by
    simp only [strData_append]
    simp [List.append_assoc]
  cases sysMsgs with
  | nil =>
      simp only [mergeSystemContent]
      rw [hformB]
      exact hplain
  | cons m sysRest =>
      cases m with
      | system existing =>
          simp only [mergeSystemContent]
          by_cases hocc : containsStr existing summaryMarker = true
          · rw [if_pos hocc]
            have hbf : occursP summaryMarker.data
                (stripChars (beforeFirst summaryMarker.data
                  existing.data)) = false :=
              occursP_false_of_infix _ _ _
                (infix_stripChars _)
                (occursP_beforeFirst summaryMarker.data hne existing.data)
            by_cases hb : pyStrip
                ⟨beforeFirst summaryMarker.data existing.data⟩ = ""
            · rw [if_pos hb, hformB]
              exact hplain
            · rw [if_neg hb, hformA]
              refine hX _ (countOcc_eq_zero_of_not_occursP _ _ ?_)
              exact hbf
          · rw [if_neg hocc]
            have hocc0 : occursP summaryMarker.data existing.data = false := by
              cases hx : occursP summaryMarker.data existing.data with
              | false => rfl
              | true => exact absurd hx (by simpa [containsStr] using hocc)
            by_cases hb : existing = ""
            · rw [if_pos hb, hformB]
              exact hplain
            · rw [if_neg hb, hformA]
              exact hX _ (countOcc_eq_zero_of_not_occursP _ _ hocc0)
      | human c =>
          simp only [mergeSystemContent]
          rw [hformB]
          exact hplain
      | ai c tcs =>
          simp only [mergeSystemContent]
          rw [hformB]
          exact hplain
      | tool c t =>
          simp only [mergeSystemContent]
          rw [hformB]
          exact hplain

theorem repairHeadTool_toolFree (old l : List Msg)
    (h : ∀ m ∈ l, toolFreeMsg m = true) :
    repairHeadTool old l = (old, l) := by
  cases l with
  | nil => rfl
  | cons m rest =>
      cases m with
      | human c => rfl
      | ai c tcs => rfl
      | system c => rfl
      | tool c t =>
          have hm := h _ (List.mem_cons_self _ _)
          simp [toolFreeMsg] at hm

theorem cleanNewLoop_toolFree (l : List Msg)
    (h : ∀ m ∈ l, toolFreeMsg m = true) :
    ∀ acc old, cleanNewLoop acc old l = (acc ++ l, old) := by
  induction l with
  | nil => intro acc old; simp [cleanNewLoop]
  | cons m rest ih =>
      intro acc old
      have hm := h m (List.mem_cons_self m rest)
      have hrest : ∀ x ∈ rest, toolFreeMsg x = true := fun x hx =>
        h x (List.mem_cons_of_mem m hx)
      cases m with
      | human c =>
          rw [cleanNewLoop, ih hrest]
          simp
      | ai c tcs =>
          rw [cleanNewLoop, ih hrest]
          simp
      | system c =>
          rw [cleanNewLoop, ih hrest]
          simp
      | tool c t => simp [toolFreeMsg] at hm

theorem WFm_of_toolFree (l : List Msg)
    (h : ∀ m ∈ l, toolFreeMsg m = true) : WFm l := by
  induction l with
  | nil => exact WFm.nil
  | cons m rest ih =>
      have hm := h m (List.mem_cons_self m rest)
      have hrest : ∀ x ∈ rest, toolFreeMsg x = true := fun x hx =>
        h x (List.mem_cons_of_mem m hx)
      cases m with
      | human c => exact WFm.hum c rest (ih hrest)
      | ai c tcs =>
          have htcs : tcs = [] := by
            cases tcs with
            | nil => rfl
            | cons a b => simp [toolFreeMsg] at hm
          subst htcs
          exact WFm.aiPlain c rest (ih hrest)
      | system c => simp [toolFreeMsg] at hm
      | tool c t => simp [toolFreeMsg] at hm

theorem system_messages_cons_toolFree (merged : String) (l : List Msg)
    (h : ∀ m ∈ l, toolFreeMsg m = true) :
    system_messages (Msg.system merged :: l) = [Msg.system merged] := by
  unfold system_messages
  rw [List.filter_cons_of_pos (by rfl)]
  rw [List.filter_eq_nil_iff.mpr]
  intro m hm
  have := h m hm
  cases m with
  | human c => simp
  | ai c tcs => simp
  | system c => simp [toolFreeMsg] at this
  | tool c t => simp [toolFreeMsg] at this

/-- C5 (amended). Summarization replaces the history only when the
estimated total exceeds the threshold **and** the non-system message
count exceeds the keep count (else the node is a no-op, see the
counterexample); in that case, for a tool-free kept window and a
marker-free summary, the node's output is exactly one system message —
carrying exactly one `"[对话历史总结]"` section — followed by the last
`keep_count` non-system messages, and the custom reducer
`replace_messages` replaces the state's list with it instead of
appending. -/
theorem C5_summarize_replaces (threshold : ℚ) (keep_count : Nat)
    (tcR : List ToolCall → String) (gen : Nat → String)
    (summary : String) (msgs prev : List Msg)
    (h1 : threshold < get_messages_tokens tcR msgs)
    (h2 : keep_count < (non_system_messages msgs).length)
    (h3 : containsStr summary summaryMarker = false)
    (htf : ∀ m ∈ pySliceFromNeg (non_system_messages msgs) keep_count,
        toolFreeMsg m = true) :
    summarize_messages threshold keep_count tcR gen summary msgs =
      some (Msg.system (mergeSystemContent (system_messages msgs) summary)
        :: pySliceFromNeg (non_system_messages msgs) keep_count) ∧
    countOcc summaryMarker.data
      (mergeSystemContent (system_messages msgs) summary).data = 1 ∧
    system_messages
        (Msg.system (mergeSystemContent (system_messages msgs) summary)
          :: pySliceFromNeg (non_system_messages msgs) keep_count) =
      [Msg.system (mergeSystemContent (system_messages msgs) summary)] ∧
    replace_messages prev
        (Msg.system (mergeSystemContent (system_messages msgs) summary)
          :: pySliceFromNeg (non_system_messages msgs) keep_count) =
      Msg.system (mergeSystemContent (system_messages msgs) summary)
        :: pySliceFromNeg (non_system_messages msgs) keep_count := by
  have hcnt := countOcc_mergeSystemContent (system_messages msgs) summary h3
  have hwf : WFm (Msg.system (mergeSystemContent (system_messages msgs)
      summary) :: pySliceFromNeg (non_system_messages msgs) keep_count) :=
    WFm.sys _ _ (WFm_of_toolFree _ htf)
  have hocc : containsStr
      (mergeSystemContent (system_messages msgs) summary)
      summaryMarker = true := by
    unfold containsStr
    cases hx : occursP summaryMarker.data
        (mergeSystemContent (system_messages msgs) summary).data with
    | true => rfl
    | false =>
        rw [countOcc_eq_zero_of_not_occursP _ _ hx] at hcnt
        cases hcnt
  refine ⟨?_, hcnt, system_messages_cons_toolFree _ _ htf, ?_⟩
  · simp only [summarize_messages]
    rw [if_neg (not_le.mpr h1), if_neg (not_le.mpr h2)]
    rw [repairHeadTool_toolFree _ _ htf]
    simp only []
    rw [cleanNewLoop_toolFree _ htf [] _]
    simp only [List.nil_append]
    rw [clean_orphaned_wf gen _ hwf]
  · simp only [replace_messages]
    rw [if_pos hocc]

theorem tokens_msgsW5 :
    get_messages_tokens (fun _ => "") msgsW5 = 22 := by
  have hcjk : ((msgsW5.map fun m =>
      (msgTokStr (fun _ => "") m).data).flatten).countP
      (fun c => isCJKChar c) = 0 := by decide
  have hoth : ((msgsW5.map fun m =>
      (msgTokStr (fun _ => "") m).data).flatten).countP
      (fun c => !(isCJKChar c) && !(pyWs c)) = 55 := by decide
  unfold get_messages_tokens estimate_tokens_chinese
  rw [hcjk, hoth]
  norm_num

/-- C5 (witness): with threshold 1 and keep count 2 the node emits the
single summary-bearing system message followed by the last two
non-system messages, and the reducer replaces. -/
theorem C5_summarize_replaces_witness :
    summarize_messages 1 2 (fun _ => "") (fun n => Nat.repr n) "S"
        msgsW5 =
      some (Msg.system (mergeSystemContent (system_messages msgsW5) "S")
        :: pySliceFromNeg (non_system_messages msgsW5) 2) ∧
    countOcc summaryMarker.data
      (mergeSystemContent (system_messages msgsW5) "S").data = 1 ∧
    system_messages
        (Msg.system (mergeSystemContent (system_messages msgsW5) "S")
          :: pySliceFromNeg (non_system_messages msgsW5) 2) =
      [Msg.system (mergeSystemContent (system_messages msgsW5) "S")] ∧
    replace_messages [Msg.human "old turn"]
        (Msg.system (mergeSystemContent (system_messages msgsW5) "S")
          :: pySliceFromNeg (non_system_messages msgsW5) 2) =
      Msg.system (mergeSystemContent (system_messages msgsW5) "S")
        :: pySliceFromNeg (non_system_messages msgsW5) 2 :=
  C5_summarize_replaces 1 2 (fun _ => "") (fun n => Nat.repr n) "S"
    msgsW5 [Msg.human "old turn"]
    (by rw [tokens_msgsW5]; norm_num) (by decide) (by decide) (by decide)

end RagVue
